import Mathlib

/-!
Verification of the lokarta rendering core (rendering.py, layout.py,
color_map.py, combat.py) against its natural-language specification.

Python machine-level details are embedded as follows: Python arbitrary
precision non-negative ints become `Nat` (64-bit wrap-around is written with
explicit `&&& 0xFFFFFFFFFFFFFFFF` masks, exactly where the source masks);
possibly negative ints become `Int`; float arithmetic is embedded over `ℚ`
(the claims settled here depend only on exact structural facts — seed
derivations, clamping, counting — not on rounding of binary floats);
strings become `List Char`.
-/

namespace Lokarta

/-! ### Python string primitives used by the rendering code -/

/-- Python `int(q)` for a rational: truncation toward zero. -/
def pyTrunc (q : ℚ) : ℤ := Int.tdiv q.num (q.den : ℤ)

theorem pyTrunc_eq_floor {q : ℚ} (h : 0 ≤ q) : pyTrunc q = ⌊q⌋ := by
  unfold pyTrunc
  rw [Rat.floor_def]
  exact Int.tdiv_eq_ediv (Rat.num_nonneg.mpr h) (by positivity)

/-- Python `s.rstrip()` restricted to spaces (the art lines contain spaces). -/
def pyRstrip (s : List Char) : List Char :=
  (s.reverse.dropWhile (· = ' ')).reverse

/-- Python `s.ljust(w)` with spaces. -/
def pyLjust (s : List Char) (w : ℕ) : List Char :=
  s ++ List.replicate (w - s.length) ' '

/-- Python `s.center(w)` with spaces: CPython puts
`marg / 2 + (marg & w & 1)` of the margin on the left. -/
def pyCenter (s : List Char) (w : ℕ) : List Char :=
  if w ≤ s.length then s
  else
    let marg := w - s.length
    let left := marg / 2 + (marg &&& w &&& 1)
    List.replicate left ' ' ++ s ++ List.replicate (marg - left) ' '

/-! ### Deterministic hash PRNG (`_mix64` / `_unit_from`, rendering.py 40-49,
color_map.py 23-31) -/

/-- `_mix64(value)`: the splitmix64 avalanche finalizer.  Every step that the
Python source masks with `& 0xFFFFFFFFFFFFFFFF` is masked here. -/
def _mix64 (value : ℕ) : ℕ :=
  let mask := 0xFFFFFFFFFFFFFFFF
  let v1 := (value + 0x9E3779B97F4A7C15) &&& mask
  let v2 := ((v1 ^^^ (v1 >>> 30)) * 0xBF58476D1CE4E5B9) &&& mask
  let v3 := ((v2 ^^^ (v2 >>> 27)) * 0x94D049BB133111EB) &&& mask
  v3 ^^^ (v3 >>> 31)

/-- `_unit_from(value) = (_mix64(value) >> 11) / float(1 << 53)`.  The
numerator is below `2^53`, so the Python float division is exact and the
value is this rational. -/
def _unit_from (value : ℕ) : ℚ :=
  ((_mix64 value >>> 11 : ℕ) : ℚ) / ((1 <<< 53 : ℕ) : ℚ)

theorem _mix64_lt (value : ℕ) : _mix64 value < 2 ^ 64 := by
  unfold _mix64
  have hmask : (0xFFFFFFFFFFFFFFFF : ℕ) < 2 ^ 64 := by norm_num
  have h3 : ∀ n : ℕ, n &&& 0xFFFFFFFFFFFFFFFF < 2 ^ 64 :=
    fun n => lt_of_le_of_lt Nat.and_le_right hmask
  have hsh : ∀ n k : ℕ, n >>> k ≤ n := by
    intro n k
    rw [Nat.shiftRight_eq_div_pow]
    exact Nat.div_le_self _ _
  exact Nat.xor_lt_two_pow (h3 _) (lt_of_le_of_lt (hsh _ _) (h3 _))

theorem shifted_mix64_lt (value : ℕ) : _mix64 value >>> 11 < 2 ^ 53 := by
  have h := _mix64_lt value
  rw [Nat.shiftRight_eq_div_pow]
  omega


/-! ### ANSI-aware text measurement (layout.py)

`strip_ansi` (layout.py 9-12) removes every match of the regular expression
`\x1b\[[0-9;]*m`.  The trim/crop scanners (layout.py 15-36 and 59-94) instead
recognise `\x1b[` followed by arbitrary characters up to the next `m`.  Both
are embedded as character-list scanners; the recursion is driven by an
explicit fuel argument (always called with the length of the list, which
bounds every recursive call) so that all functions compute structurally. -/

/-- Matcher for the parameter part of the regex `\x1b\[[0-9;]*m`, applied
after the leading `\x1b[`: greedily consumes `[0-9;]*`, then requires `m`.
Returns the remainder after the match, or `none` when the match fails. -/
def matchSgr : List Char → Option (List Char)
  | [] => none
  | c :: rest =>
    if c.isDigit = true ∨ c = ';' then matchSgr rest
    else if c = 'm' then some rest
    else none

/-- The scan `j = i + 2; while j < len(text) and text[j] != 'm': j += 1` used
by the trim and crop loops: splits the input at the first `m`, returning the
characters before it and the remainder after it; `none` when no `m` exists
(`j == len(text)`). -/
def scanToM : List Char → Option (List Char × List Char)
  | [] => none
  | c :: rest =>
    if c = 'm' then some ([], rest)
    else
      match scanToM rest with
      | some (p, r) => some (c :: p, r)
      | none => none

/-- Fueled worker for `strip_ansi`: leftmost-match semantics of
`re.sub(r"\x1b\[[0-9;]*m", "", s)` — at each position, if the regex matches,
the match is dropped and scanning resumes after it; otherwise the character
is kept and scanning resumes at the next position. -/
def stripGo : ℕ → List Char → List Char
  | 0, _ => []
  | _ + 1, [] => []
  | fuel + 1, c :: rest =>
    if c = '\x1b' then
      match rest with
      | d :: rest2 =>
        if d = '[' then
          match matchSgr rest2 with
          | some rest3 => stripGo fuel rest3
          | none => c :: stripGo fuel rest
        else c :: stripGo fuel rest
      | [] => [c]
    else c :: stripGo fuel rest

/-- `strip_ansi(s)` from layout.py 9-12. -/
def strip_ansi (s : List Char) : List Char := stripGo s.length s

/-- Fueled worker for the trimming loop of `pad_or_trim_ansi`
(layout.py 20-36): `budget` is the remaining visible width; escape
sequences (`\x1b[` … `m`) are copied without consuming budget; when no
terminating `m` exists the `\x1b` is treated as a visible character. -/
def trimGo : ℕ → ℕ → List Char → List Char
  | 0, _, _ => []
  | _ + 1, _, [] => []
  | _ + 1, 0, _ => []
  | fuel + 1, budget + 1, c :: rest =>
    if c = '\x1b' then
      match rest with
      | d :: rest2 =>
        if d = '[' then
          match scanToM rest2 with
          | some (params, rest3) =>
            ('\x1b' :: '[' :: (params ++ ['m'])) ++ trimGo fuel (budget + 1) rest3
          | none => c :: trimGo fuel budget rest
        else c :: trimGo fuel budget rest
      | [] => [c]
    else c :: trimGo fuel budget rest

/-- `pad_or_trim_ansi(text, width)` from layout.py 15-37. -/
def pad_or_trim_ansi (text : List Char) (width : ℕ) : List Char :=
  let visible := strip_ansi text
  if width < visible.length then trimGo text.length width text
  else text ++ List.replicate (width - visible.length) ' '

/-- `pad_ansi(text, width)` from layout.py 40-45. -/
def pad_ansi (text : List Char) (width : ℕ) : List Char :=
  let visible := strip_ansi text
  if width ≤ visible.length then text
  else text ++ List.replicate (width - visible.length) ' '

/-- `center_ansi(text, width)` from layout.py 48-56. -/
def center_ansi (text : List Char) (width : ℕ) : List Char :=
  let visibleLen := (strip_ansi text).length
  if width < visibleLen then pad_or_trim_ansi text width
  else if visibleLen = width then text
  else
    let left := (width - visibleLen) / 2
    let right := width - visibleLen - left
    List.replicate left ' ' ++ text ++ List.replicate right ' '

/-- Fueled worker for the crop loop of `center_crop_ansi`
(layout.py 75-93): `vis` is the current visible index; a whole escape
sequence is copied iff the visible index at its position lies in
`[start, stop)`; a visible character is copied iff its index does. -/
def cropGo : ℕ → ℕ → ℕ → ℕ → List Char → List Char
  | 0, _, _, _, _ => []
  | _ + 1, _, _, _, [] => []
  | fuel + 1, start, stop, vis, c :: rest =>
    if c = '\x1b' then
      match rest with
      | d :: rest2 =>
        if d = '[' then
          match scanToM rest2 with
          | some (params, rest3) =>
            (if start ≤ vis ∧ vis < stop then '\x1b' :: '[' :: (params ++ ['m']) else [])
              ++ cropGo fuel start stop vis rest3
          | none =>
            (if start ≤ vis ∧ vis < stop then [c] else [])
              ++ cropGo fuel start stop (vis + 1) rest
        else
          (if start ≤ vis ∧ vis < stop then [c] else [])
            ++ cropGo fuel start stop (vis + 1) rest
      | [] => if start ≤ vis ∧ vis < stop then [c] else []
    else
      (if start ≤ vis ∧ vis < stop then [c] else [])
        ++ cropGo fuel start stop (vis + 1) rest

/-- Crop start column of `center_crop_ansi` (layout.py 64-73): without an
anchor it is `(visible_len - width) // 2`; with one, the anchor is clamped
to `[0, visible_len - 1]`, shifted left by `width // 2` and clamped to
`[0, visible_len - width]`. -/
def cropStart (vlen width : ℕ) (anchorX : Option ℤ) : ℕ :=
  match anchorX with
  | none => (vlen - width) / 2
  | some a =>
    (max 0 (min ((max 0 (min a (max ((vlen : ℤ) - 1) 0))) - ((width : ℤ) / 2))
      ((vlen : ℤ) - (width : ℤ)))).toNat

/-- `center_crop_ansi(text, width, anchor_x)` from layout.py 59-94. -/
def center_crop_ansi (text : List Char) (width : ℕ) (anchorX : Option ℤ) : List Char :=
  let visible := strip_ansi text
  let vlen := visible.length
  if vlen ≤ width then center_ansi text width
  else
    let start := cropStart vlen width anchorX
    cropGo text.length start (start + width) 0 text

/-- Re-parse of a string with the crop scanner, looking for a dangling
`\x1b[` that never reaches a terminating `m` (fueled worker). -/
def danglingGo : ℕ → List Char → Bool
  | 0, _ => false
  | _ + 1, [] => false
  | fuel + 1, c :: rest =>
    if c = '\x1b' then
      match rest with
      | d :: rest2 =>
        if d = '[' then
          match scanToM rest2 with
          | some (_, rest3) => danglingGo fuel rest3
          | none => true
        else danglingGo fuel rest
      | [] => false
    else danglingGo fuel rest

/-- A string contains a dangling `\x1b[` without its terminating `m`. -/
def hasDangling (s : List Char) : Bool := danglingGo s.length s


/-! ### Token view of ANSI strings

A string is well formed when it is a concatenation of visible characters
(never `\x1b`) and complete colour escapes `\x1b[` + `[0-9;]*` + `m` — the
only shapes the rendering code itself emits.  On well-formed strings the
regex scanner of `strip_ansi` and the until-`m` scanner of the crop/trim
loops agree, which is what the layout invariants rest on. -/

/-- One lexical token of an ANSI-coloured string. -/
inductive AnsiTok where
  | esc (params : List Char)
  | vis (c : Char)
deriving DecidableEq

/-- The characters of one token. -/
def tokRender : AnsiTok → List Char
  | .esc ps => '\x1b' :: '[' :: (ps ++ ['m'])
  | .vis c => [c]

/-- Concatenation of a token list back into a string. -/
def renderToks (ts : List AnsiTok) : List Char := (ts.map tokRender).flatten

/-- A token is good when its escape parameters lie in `[0-9;]` and its
visible character is not `\x1b`. -/
def goodTok : AnsiTok → Prop
  | .esc ps => ∀ c ∈ ps, c.isDigit = true ∨ c = ';'
  | .vis c => c ≠ '\x1b'

/-- A well-formed ANSI string: some token decomposition, all tokens good. -/
def WellFormedAnsi (s : List Char) : Prop :=
  ∃ ts : List AnsiTok, (∀ t ∈ ts, goodTok t) ∧ s = renderToks ts

/-- The visible characters of a token list. -/
def visToks : List AnsiTok → List Char
  | [] => []
  | .esc _ :: ts => visToks ts
  | .vis c :: ts => c :: visToks ts

theorem renderToks_nil : renderToks [] = [] := rfl

theorem renderToks_cons (t : AnsiTok) (ts : List AnsiTok) :
    renderToks (t :: ts) = tokRender t ++ renderToks ts := by
  simp [renderToks]

theorem renderToks_append (a b : List AnsiTok) :
    renderToks (a ++ b) = renderToks a ++ renderToks b := by
  simp [renderToks]

theorem renderToks_map_vis (s : List Char) :
    renderToks (s.map AnsiTok.vis) = s := by
  induction s with
  | nil => rfl
  | cons c rest ih => simp [renderToks_cons, tokRender, ih]

/-! Facts about the two low-level matchers. -/

theorem matchSgr_length {l r : List Char} (h : matchSgr l = some r) :
    r.length ≤ l.length := by
  induction l generalizing r with
  | nil => simp [matchSgr] at h
  | cons c rest ih =>
    unfold matchSgr at h
    by_cases h1 : c.isDigit = true ∨ c = ';'
    · rw [if_pos h1] at h
      exact le_trans (ih h) (by simp)
    · rw [if_neg h1] at h
      by_cases h2 : c = 'm'
      · rw [if_pos h2] at h
        simp only [Option.some.injEq] at h
        subst h
        simp
      · rw [if_neg h2] at h
        simp at h

theorem matchSgr_params {ps : List Char}
    (hps : ∀ c ∈ ps, c.isDigit = true ∨ c = ';') (r : List Char) :
    matchSgr (ps ++ 'm' :: r) = some r := by
  induction ps with
  | nil => simp [matchSgr]
  | cons c rest ih =>
    have hc : c.isDigit = true ∨ c = ';' := hps c (by simp)
    simp only [List.cons_append]
    unfold matchSgr
    rw [if_pos hc]
    exact ih (fun d hd => hps d (by simp [hd]))

theorem matchSgr_append_some {l r : List Char} (h : matchSgr l = some r)
    (t : List Char) : matchSgr (l ++ t) = some (r ++ t) := by
  induction l generalizing r with
  | nil => simp [matchSgr] at h
  | cons c rest ih =>
    unfold matchSgr at h
    simp only [List.cons_append]
    unfold matchSgr
    by_cases h1 : c.isDigit = true ∨ c = ';'
    · rw [if_pos h1] at h ⊢
      exact ih h
    · rw [if_neg h1] at h ⊢
      by_cases h2 : c = 'm'
      · rw [if_pos h2] at h ⊢
        simp only [Option.some.injEq] at h
        subst h
        rfl
      · rw [if_neg h2] at h
        simp at h

theorem matchSgr_spaces_none {l : List Char} (h : matchSgr l = none)
    (k : ℕ) : matchSgr (l ++ List.replicate k ' ') = none := by
  induction l with
  | nil =>
    cases k with
    | zero => simpa using h
    | succ j => simp [matchSgr]
  | cons c rest ih =>
    unfold matchSgr at h
    simp only [List.cons_append]
    unfold matchSgr
    by_cases h1 : c.isDigit = true ∨ c = ';'
    · rw [if_pos h1] at h ⊢
      exact ih h
    · rw [if_neg h1] at h ⊢
      by_cases h2 : c = 'm'
      · rw [if_pos h2] at h
        simp at h
      · rw [if_neg h2]

theorem scanToM_split {l p r : List Char} (h : scanToM l = some (p, r)) :
    l = p ++ 'm' :: r := by
  induction l generalizing p r with
  | nil => simp [scanToM] at h
  | cons c rest ih =>
    unfold scanToM at h
    split_ifs at h with h1
    · simp only [Option.some.injEq, Prod.mk.injEq] at h
      obtain ⟨hp, hr⟩ := h
      subst hp; subst hr; subst h1
      rfl
    · cases hs : scanToM rest with
      | none => rw [hs] at h; simp at h
      | some pr =>
        obtain ⟨p2, r2⟩ := pr
        rw [hs] at h
        simp only [Option.some.injEq, Prod.mk.injEq] at h
        obtain ⟨hp, hr⟩ := h
        subst hp; subst hr
        simpa using congrArg (c :: ·) (ih hs)

theorem scanToM_no_m {ps : List Char} (hm : 'm' ∉ ps) (r : List Char) :
    scanToM (ps ++ 'm' :: r) = some (ps, r) := by
  induction ps with
  | nil => simp [scanToM]
  | cons c rest ih =>
    have hc : c ≠ 'm' := fun e => hm (by simp [e])
    simp only [List.cons_append]
    unfold scanToM
    rw [if_neg hc, ih (fun e => hm (by simp [e]))]

theorem good_params_no_m {ps : List Char}
    (hps : ∀ c ∈ ps, c.isDigit = true ∨ c = ';') : 'm' ∉ ps := by
  intro hm
  rcases hps 'm' hm with h | h
  · simp [Char.isDigit] at h
  · simp at h


/-! Step equations and fuel irrelevance for the `strip_ansi` worker. -/

theorem stripGo_nil : ∀ f : ℕ, stripGo f [] = [] := by
  intro f
  cases f <;> rfl

theorem stripGo_cons_ne (f : ℕ) {c : Char} (rest : List Char)
    (h : c ≠ '\x1b') : stripGo (f + 1) (c :: rest) = c :: stripGo f rest := by
  conv_lhs => unfold stripGo
  rw [if_neg h]

theorem stripGo_esc_match (f : ℕ) {rest2 rest3 : List Char}
    (h : matchSgr rest2 = some rest3) :
    stripGo (f + 1) ('\x1b' :: '[' :: rest2) = stripGo f rest3 := by
  conv_lhs => unfold stripGo
  simp only [reduceIte, h]

theorem stripGo_esc_nomatch (f : ℕ) {rest2 : List Char}
    (h : matchSgr rest2 = none) :
    stripGo (f + 1) ('\x1b' :: '[' :: rest2) = '\x1b' :: stripGo f ('[' :: rest2) := by
  conv_lhs => unfold stripGo
  simp only [reduceIte, h]

theorem stripGo_esc_ne (f : ℕ) {d : Char} (rest : List Char) (h : d ≠ '[') :
    stripGo (f + 1) ('\x1b' :: d :: rest) = '\x1b' :: stripGo f (d :: rest) := by
  conv_lhs => unfold stripGo
  simp only [reduceIte, if_neg h]

theorem stripGo_esc_nil (f : ℕ) : stripGo (f + 1) ['\x1b'] = ['\x1b'] := by
  conv_lhs => unfold stripGo
  simp only [reduceIte]

theorem stripGo_fuel : ∀ (f g : ℕ) (s : List Char),
    s.length ≤ f → s.length ≤ g → stripGo f s = stripGo g s := by
  intro f
  induction f with
  | zero =>
    intro g s hf hg
    have : s = [] := List.eq_nil_of_length_eq_zero (Nat.le_zero.mp hf)
    subst this
    rw [stripGo_nil, stripGo_nil]
  | succ f ih =>
    intro g s hf hg
    cases s with
    | nil => rw [stripGo_nil, stripGo_nil]
    | cons c rest =>
      simp only [List.length_cons] at hf hg
      cases g with
      | zero => omega
      | succ g =>
        by_cases hc : c = '\x1b'
        · subst hc
          cases rest with
          | nil => rw [stripGo_esc_nil, stripGo_esc_nil]
          | cons d rest2 =>
            by_cases hd : d = '['
            · subst hd
              cases hm : matchSgr rest2 with
              | some rest3 =>
                rw [stripGo_esc_match f hm, stripGo_esc_match g hm]
                have h3 : rest3.length ≤ rest2.length := matchSgr_length hm
                simp only [List.length_cons] at hf hg
                exact ih g rest3 (by omega) (by omega)
              | none =>
                rw [stripGo_esc_nomatch f hm, stripGo_esc_nomatch g hm]
                simp only [List.length_cons] at hf hg
                rw [ih g ('[' :: rest2) (by simp; omega) (by simp; omega)]
            · rw [stripGo_esc_ne f rest2 hd, stripGo_esc_ne g rest2 hd]
              simp only [List.length_cons] at hf hg
              rw [ih g (d :: rest2) (by simp; omega) (by simp; omega)]
        · rw [stripGo_cons_ne f rest hc, stripGo_cons_ne g rest hc]
          rw [ih g rest (by omega) (by omega)]

theorem strip_ansi_go (f : ℕ) (s : List Char) (h : s.length ≤ f) :
    stripGo f s = strip_ansi s :=
  stripGo_fuel f s.length s h le_rfl

/-! `strip_ansi` on well-formed strings picks out exactly the visible
characters. -/

theorem stripGo_renderToks : ∀ (fuel : ℕ) (ts : List AnsiTok),
    (∀ t ∈ ts, goodTok t) → (renderToks ts).length ≤ fuel →
    stripGo fuel (renderToks ts) = visToks ts := by
  intro fuel
  induction fuel with
  | zero =>
    intro ts hgood hlen
    cases ts with
    | nil => rfl
    | cons t ts2 =>
      exfalso
      rw [renderToks_cons] at hlen
      cases t <;> simp [tokRender] at hlen
  | succ f ih =>
    intro ts hgood hlen
    cases ts with
    | nil => rfl
    | cons t ts2 =>
      rw [renderToks_cons] at hlen ⊢
      have hgood2 : ∀ t ∈ ts2, goodTok t := fun t ht => hgood t (by simp [ht])
      cases t with
      | vis c =>
        have hc : c ≠ '\x1b' := hgood (.vis c) (by simp)
        simp only [tokRender, List.singleton_append, List.length_cons] at hlen ⊢
        rw [stripGo_cons_ne f _ hc, ih ts2 hgood2 (by omega)]
        rfl
      | esc ps =>
        have hps : ∀ c ∈ ps, c.isDigit = true ∨ c = ';' := hgood (.esc ps) (by simp)
        simp only [tokRender, List.cons_append, List.append_assoc,
          List.singleton_append, List.nil_append, List.length_cons,
          List.length_append] at hlen ⊢
        rw [stripGo_esc_match f (matchSgr_params hps (renderToks ts2))]
        rw [ih ts2 hgood2 (by omega)]
        rfl

theorem strip_ansi_renderToks (ts : List AnsiTok)
    (hgood : ∀ t ∈ ts, goodTok t) :
    strip_ansi (renderToks ts) = visToks ts :=
  stripGo_renderToks (renderToks ts).length ts hgood le_rfl


/-! Appending spaces (what padding does) extends the visible part. -/

theorem stripGo_spaces : ∀ (k fuel : ℕ), k ≤ fuel →
    stripGo fuel (List.replicate k ' ') = List.replicate k ' ' := by
  intro k
  induction k with
  | zero =>
    intro fuel _
    rw [List.replicate_zero, stripGo_nil]
  | succ j ih =>
    intro fuel hk
    cases fuel with
    | zero => omega
    | succ f =>
      rw [List.replicate_succ, stripGo_cons_ne f _ (by decide), ih f (by omega)]

theorem stripGo_append_spaces : ∀ (fuel : ℕ) (s : List Char) (k : ℕ),
    s.length + k ≤ fuel →
    stripGo fuel (s ++ List.replicate k ' ') = stripGo fuel s ++ List.replicate k ' ' := by
  intro fuel
  induction fuel with
  | zero =>
    intro s k h
    have hs : s = [] := List.eq_nil_of_length_eq_zero (by omega)
    have hk : k = 0 := by omega
    subst hs; subst hk
    simp [stripGo_nil]
  | succ f ih =>
    intro s k h
    cases s with
    | nil =>
      rw [List.nil_append, stripGo_nil, List.nil_append,
        stripGo_spaces k (f + 1) (by omega)]
    | cons c rest =>
      simp only [List.length_cons] at h
      by_cases hc : c = '\x1b'
      · subst hc
        cases rest with
        | nil =>
          cases k with
          | zero => simp [stripGo_esc_nil]
          | succ j =>
            simp only [List.singleton_append, List.replicate_succ]
            rw [stripGo_esc_ne f _ (by decide), stripGo_esc_nil,
              ← List.replicate_succ, stripGo_spaces (j + 1) f (by omega)]
            simp [List.replicate_succ]
        | cons d rest2 =>
          by_cases hd : d = '['
          · subst hd
            cases hm : matchSgr rest2 with
            | some r3 =>
              have hm2 := matchSgr_append_some hm (List.replicate k ' ')
              simp only [List.cons_append]
              rw [stripGo_esc_match f hm2, stripGo_esc_match f hm]
              have h3 : r3.length ≤ rest2.length := matchSgr_length hm
              simp only [List.length_cons] at h
              exact ih r3 k (by omega)
            | none =>
              have hm2 := matchSgr_spaces_none hm k
              simp only [List.cons_append]
              rw [stripGo_esc_nomatch f hm2, stripGo_esc_nomatch f hm]
              simp only [List.length_cons] at h
              have := ih ('[' :: rest2) k (by simp; omega)
              simp only [List.cons_append] at this
              rw [this]
              rfl
          · simp only [List.cons_append]
            rw [stripGo_esc_ne f _ hd, stripGo_esc_ne f _ hd]
            simp only [List.length_cons] at h
            have := ih (d :: rest2) k (by simp; omega)
            simp only [List.cons_append] at this
            rw [this]
            rfl
      · simp only [List.cons_append]
        rw [stripGo_cons_ne f _ hc, stripGo_cons_ne f _ hc, ih rest k (by omega)]
        rfl

theorem strip_ansi_append_spaces (s : List Char) (k : ℕ) :
    strip_ansi (s ++ List.replicate k ' ') = strip_ansi s ++ List.replicate k ' ' := by
  unfold strip_ansi
  have hl : (s ++ List.replicate k ' ').length = s.length + k := by simp
  rw [hl, stripGo_append_spaces (s.length + k) s k le_rfl,
    stripGo_fuel (s.length + k) s.length s (by omega) le_rfl]

/-- Visible length of `pad_ansi`: padding counts visible characters only,
so the result has visible length `max w (visible length of s)`. -/
theorem pad_ansi_visLen (s : List Char) (w : ℕ) :
    (strip_ansi (pad_ansi s w)).length = max w (strip_ansi s).length := by
  unfold pad_ansi
  by_cases h : w ≤ (strip_ansi s).length
  · rw [if_pos h]
    omega
  · rw [if_neg h, strip_ansi_append_spaces]
    simp
    omega


/-! The crop scanner on well-formed strings: token-level description. -/

/-- Token-level analogue of the crop loop: keep a token iff the visible
index at its position lies in `[start, stop)`; only visible tokens advance
the index. -/
def cropToks (start stop vis : ℕ) : List AnsiTok → List AnsiTok
  | [] => []
  | AnsiTok.esc ps :: ts =>
    (if start ≤ vis ∧ vis < stop then [AnsiTok.esc ps] else [])
      ++ cropToks start stop vis ts
  | AnsiTok.vis c :: ts =>
    (if start ≤ vis ∧ vis < stop then [AnsiTok.vis c] else [])
      ++ cropToks start stop (vis + 1) ts

theorem cropGo_nil (f start stop vis : ℕ) :
    cropGo f start stop vis [] = [] := by
  cases f <;> rfl

theorem cropGo_cons_ne (f start stop vis : ℕ) {c : Char} (rest : List Char)
    (h : c ≠ '\x1b') :
    cropGo (f + 1) start stop vis (c :: rest) =
      (if start ≤ vis ∧ vis < stop then [c] else [])
        ++ cropGo f start stop (vis + 1) rest := by
  conv_lhs => unfold cropGo
  rw [if_neg h]

theorem cropGo_esc_scan (f start stop vis : ℕ) {rest2 ps r3 : List Char}
    (h : scanToM rest2 = some (ps, r3)) :
    cropGo (f + 1) start stop vis ('\x1b' :: '[' :: rest2) =
      (if start ≤ vis ∧ vis < stop then '\x1b' :: '[' :: (ps ++ ['m']) else [])
        ++ cropGo f start stop vis r3 := by
  conv_lhs => unfold cropGo
  simp only [reduceIte, h]

theorem cropGo_renderToks : ∀ (fuel : ℕ) (ts : List AnsiTok) (start stop vis : ℕ),
    (∀ t ∈ ts, goodTok t) → (renderToks ts).length ≤ fuel →
    cropGo fuel start stop vis (renderToks ts)
      = renderToks (cropToks start stop vis ts) := by
  intro fuel
  induction fuel with
  | zero =>
    intro ts start stop vis hgood hlen
    cases ts with
    | nil => rfl
    | cons t ts2 =>
      exfalso
      rw [renderToks_cons] at hlen
      cases t <;> simp [tokRender] at hlen
  | succ f ih =>
    intro ts start stop vis hgood hlen
    cases ts with
    | nil => rfl
    | cons t ts2 =>
      rw [renderToks_cons] at hlen ⊢
      have hgood2 : ∀ t ∈ ts2, goodTok t := fun t ht => hgood t (by simp [ht])
      cases t with
      | vis c =>
        have hc : c ≠ '\x1b' := hgood (.vis c) (by simp)
        simp only [tokRender, List.singleton_append, List.length_cons] at hlen ⊢
        rw [cropGo_cons_ne f start stop vis _ hc,
          ih ts2 start stop (vis + 1) hgood2 (by omega)]
        simp only [cropToks, renderToks_append]
        by_cases hp : start ≤ vis ∧ vis < stop
        · simp [hp, renderToks_cons, renderToks_nil, tokRender]
        · simp [hp, renderToks_nil]
      | esc ps =>
        have hps : ∀ c ∈ ps, c.isDigit = true ∨ c = ';' := hgood (.esc ps) (by simp)
        have hscan := scanToM_no_m (good_params_no_m hps) (renderToks ts2)
        simp only [tokRender, List.cons_append, List.append_assoc,
          List.singleton_append, List.nil_append, List.length_cons,
          List.length_append] at hlen ⊢
        rw [cropGo_esc_scan f start stop vis hscan,
          ih ts2 start stop vis hgood2 (by omega)]
        simp only [cropToks, renderToks_append]
        by_cases hp : start ≤ vis ∧ vis < stop
        · simp [hp, renderToks_cons, renderToks_nil, tokRender]
        · simp [hp, renderToks_nil]

theorem cropToks_subset : ∀ (ts : List AnsiTok) (start stop vis : ℕ)
    (t : AnsiTok), t ∈ cropToks start stop vis ts → t ∈ ts := by
  intro ts
  induction ts with
  | nil =>
    intro start stop vis t ht
    simp [cropToks] at ht
  | cons hd ts2 ih =>
    intro start stop vis t ht
    cases hd with
    | esc ps =>
      simp only [cropToks, List.mem_append] at ht
      rcases ht with h | h
      · by_cases hp : start ≤ vis ∧ vis < stop
        · rw [if_pos hp] at h
          simp only [List.mem_singleton] at h
          exact List.mem_cons.mpr (Or.inl h)
        · rw [if_neg hp] at h
          simp at h
      · exact List.mem_cons_of_mem _ (ih start stop vis t h)
    | vis c =>
      simp only [cropToks, List.mem_append] at ht
      rcases ht with h | h
      · by_cases hp : start ≤ vis ∧ vis < stop
        · rw [if_pos hp] at h
          simp only [List.mem_singleton] at h
          exact List.mem_cons.mpr (Or.inl h)
        · rw [if_neg hp] at h
          simp at h
      · exact List.mem_cons_of_mem _ (ih start stop (vis + 1) t h)

theorem visToks_append (a b : List AnsiTok) :
    visToks (a ++ b) = visToks a ++ visToks b := by
  induction a with
  | nil => rfl
  | cons t ts ih =>
    cases t with
    | esc ps => simpa [visToks] using ih
    | vis c => simpa [visToks] using ih

theorem visToks_cropToks_length : ∀ (ts : List AnsiTok) (start stop vis : ℕ),
    (visToks (cropToks start stop vis ts)).length
      = min stop (vis + (visToks ts).length) - max start vis := by
  intro ts
  induction ts with
  | nil =>
    intro start stop vis
    simp only [cropToks, visToks, List.length_nil]
    omega
  | cons hd ts2 ih =>
    intro start stop vis
    cases hd with
    | esc ps =>
      simp only [cropToks, visToks_append, List.length_append]
      by_cases hp : start ≤ vis ∧ vis < stop
      · rw [if_pos hp]
        simpa [visToks] using ih start stop vis
      · rw [if_neg hp]
        simpa [visToks] using ih start stop vis
    | vis c =>
      simp only [cropToks, visToks_append, List.length_append]
      have h1 := ih start stop (vis + 1)
      have harg : vis + ((visToks ts2).length + 1)
          = vis + 1 + (visToks ts2).length := by omega
      by_cases hp : start ≤ vis ∧ vis < stop
      · rw [if_pos hp]
        simp only [visToks, List.length_cons, List.length_nil, h1, harg]
        omega
      · rw [if_neg hp]
        simp only [visToks, List.length_cons, List.length_nil, h1, harg]
        omega

/-! Re-parsing well-formed strings never finds a dangling escape. -/

theorem danglingGo_nil (f : ℕ) : danglingGo f [] = false := by
  cases f <;> rfl

theorem danglingGo_cons_ne (f : ℕ) {c : Char} (rest : List Char)
    (h : c ≠ '\x1b') : danglingGo (f + 1) (c :: rest) = danglingGo f rest := by
  conv_lhs => unfold danglingGo
  rw [if_neg h]

theorem danglingGo_esc_scan (f : ℕ) {rest2 ps r3 : List Char}
    (h : scanToM rest2 = some (ps, r3)) :
    danglingGo (f + 1) ('\x1b' :: '[' :: rest2) = danglingGo f r3 := by
  conv_lhs => unfold danglingGo
  simp only [reduceIte, h]

theorem danglingGo_renderToks : ∀ (fuel : ℕ) (ts : List AnsiTok),
    (∀ t ∈ ts, goodTok t) → (renderToks ts).length ≤ fuel →
    danglingGo fuel (renderToks ts) = false := by
  intro fuel
  induction fuel with
  | zero =>
    intro ts hgood hlen
    cases ts with
    | nil => rfl
    | cons t ts2 =>
      exfalso
      rw [renderToks_cons] at hlen
      cases t <;> simp [tokRender] at hlen
  | succ f ih =>
    intro ts hgood hlen
    cases ts with
    | nil => rfl
    | cons t ts2 =>
      rw [renderToks_cons] at hlen ⊢
      have hgood2 : ∀ t ∈ ts2, goodTok t := fun t ht => hgood t (by simp [ht])
      cases t with
      | vis c =>
        have hc : c ≠ '\x1b' := hgood (.vis c) (by simp)
        simp only [tokRender, List.singleton_append, List.length_cons] at hlen ⊢
        rw [danglingGo_cons_ne f _ hc]
        exact ih ts2 hgood2 (by omega)
      | esc ps =>
        have hps : ∀ c ∈ ps, c.isDigit = true ∨ c = ';' := hgood (.esc ps) (by simp)
        have hscan := scanToM_no_m (good_params_no_m hps) (renderToks ts2)
        simp only [tokRender, List.cons_append, List.append_assoc,
          List.singleton_append, List.nil_append, List.length_cons,
          List.length_append] at hlen ⊢
        rw [danglingGo_esc_scan f hscan]
        exact ih ts2 hgood2 (by omega)

theorem hasDangling_wellFormed {s : List Char} (h : WellFormedAnsi s) :
    hasDangling s = false := by
  obtain ⟨ts, hgood, rfl⟩ := h
  exact danglingGo_renderToks (renderToks ts).length ts hgood le_rfl


theorem cropStart_le (vlen width : ℕ) (anchorX : Option ℤ) (h : width < vlen) :
    cropStart vlen width anchorX + width ≤ vlen := by
  cases anchorX with
  | none =>
    simp only [cropStart]
    omega
  | some a =>
    simp only [cropStart]
    generalize (max 0 (min a (max ((vlen : ℤ) - 1) 0))) - ((width : ℤ) / 2) = x
    omega

/-- The crop branch of `center_crop_ansi` on a well-formed string keeps
exactly the visible characters indexed in `[start, start + width)` along
with the escapes positioned there. -/
theorem center_crop_ansi_renderToks (ts : List AnsiTok)
    (hgood : ∀ t ∈ ts, goodTok t) (width : ℕ) (anchorX : Option ℤ)
    (h : width < (visToks ts).length) :
    center_crop_ansi (renderToks ts) width anchorX =
      renderToks (cropToks (cropStart (visToks ts).length width anchorX)
        (cropStart (visToks ts).length width anchorX + width) 0 ts) := by
  unfold center_crop_ansi
  rw [strip_ansi_renderToks ts hgood]
  rw [if_neg (by omega)]
  exact cropGo_renderToks (renderToks ts).length ts _ _ 0 hgood le_rfl


theorem center_ansi_of_eq (text : List Char) (width : ℕ)
    (h : (strip_ansi text).length = width) : center_ansi text width = text := by
  unfold center_ansi
  rw [if_neg (by omega), if_pos h]

theorem center_ansi_dangling (ts : List AnsiTok) (hgood : ∀ t ∈ ts, goodTok t)
    (w : ℕ) (hle : (visToks ts).length ≤ w) :
    hasDangling (center_ansi (renderToks ts) w) = false := by
  unfold center_ansi
  rw [strip_ansi_renderToks ts hgood]
  rw [if_neg (by omega)]
  by_cases he : (visToks ts).length = w
  · rw [if_pos he]
    exact hasDangling_wellFormed ⟨ts, hgood, rfl⟩
  · rw [if_neg he]
    apply hasDangling_wellFormed
    refine ⟨(List.replicate ((w - (visToks ts).length) / 2) ' ').map AnsiTok.vis
      ++ ts ++ (List.replicate (w - (visToks ts).length
        - (w - (visToks ts).length) / 2) ' ').map AnsiTok.vis, ?_, ?_⟩
    · intro t ht
      rcases List.mem_append.mp ht with h1 | h1
      · rcases List.mem_append.mp h1 with h2 | h2
        · rcases List.mem_map.mp h2 with ⟨c, hc, rfl⟩
          have hsp : c = ' ' := List.eq_of_mem_replicate hc
          subst hsp
          simp [goodTok]
        · exact hgood t h2
      · rcases List.mem_map.mp h1 with ⟨c, hc, rfl⟩
        have hsp : c = ' ' := List.eq_of_mem_replicate hc
        subst hsp
        simp [goodTok]
    · rw [renderToks_append, renderToks_append, renderToks_map_vis,
        renderToks_map_vis]

/-- C4 (amended): for every string and width, the visible length of
`pad_ansi(s, w)` is `max(w, visible_length(s))`; and for every string all
of whose `\x1b` occurrences begin complete `\x1b[` + `[0-9;]*` + `m`
escapes (which is the only shape the program itself emits), cropping with
`center_crop_ansi` yields visible length exactly `w` whenever
`visible_length(s) ≥ w`, and re-parsing the crop never finds a dangling
`\x1b[` without its terminating `m`.  The two well-formedness hypotheses
are necessary: on malformed input the regex of `strip_ansi` and the
until-`m` scanner of the crop loop disagree (see the counterexample). -/
theorem claim_C4_width_invariants (s : List Char) (w : ℕ) (anchorX : Option ℤ) :
    (strip_ansi (pad_ansi s w)).length = max w (strip_ansi s).length ∧
    (WellFormedAnsi s → w ≤ (strip_ansi s).length →
      (strip_ansi (center_crop_ansi s w anchorX)).length = w) ∧
    (WellFormedAnsi s → hasDangling (center_crop_ansi s w anchorX) = false) := by
  refine ⟨pad_ansi_visLen s w, ?_, ?_⟩
  · rintro ⟨ts, hgood, rfl⟩ hw
    rw [strip_ansi_renderToks ts hgood] at hw
    by_cases hlt : w < (visToks ts).length
    · rw [center_crop_ansi_renderToks ts hgood w anchorX hlt]
      rw [strip_ansi_renderToks _
        (fun t ht => hgood t (cropToks_subset ts _ _ 0 t ht))]
      rw [visToks_cropToks_length]
      have hle := cropStart_le (visToks ts).length w anchorX hlt
      omega
    · unfold center_crop_ansi
      rw [strip_ansi_renderToks ts hgood, if_pos (by omega)]
      rw [center_ansi_of_eq _ _
        (by rw [strip_ansi_renderToks ts hgood]; omega)]
      rw [strip_ansi_renderToks ts hgood]
      omega
  · rintro ⟨ts, hgood, rfl⟩
    by_cases hlt : w < (visToks ts).length
    · rw [center_crop_ansi_renderToks ts hgood w anchorX hlt]
      exact hasDangling_wellFormed
        ⟨_, fun t ht => hgood t (cropToks_subset ts _ _ 0 t ht), rfl⟩
    · unfold center_crop_ansi
      rw [strip_ansi_renderToks ts hgood, if_pos (by omega)]
      exact center_ansi_dangling ts hgood w (by omega)

/-- C4 counterexample: the claim as stated quantifies over every string.
On `"\x1b[AmXYZ"` — whose escape-like prefix is not of the SGR shape
`\x1b[` + `[0-9;]*` + `m` — the visible length (per `strip_ansi`) is 7,
yet cropping to width 3 returns `"Z"`, of visible length 1, because the
crop loop consumes `\x1b[Am` as one escape while `strip_ansi` counts those
four characters as visible. -/
theorem claim_C4_counterexample :
    3 ≤ (strip_ansi ['\x1b', '[', 'A', 'm', 'X', 'Y', 'Z']).length ∧
    (strip_ansi (center_crop_ansi ['\x1b', '[', 'A', 'm', 'X', 'Y', 'Z'] 3 none)).length ≠ 3 := by
  decide

theorem claim_C4_witness :
    WellFormedAnsi ['\x1b', '[', '3', '1', 'm', 'A', 'B', 'C'] ∧
    2 ≤ (strip_ansi ['\x1b', '[', '3', '1', 'm', 'A', 'B', 'C']).length ∧
    (strip_ansi (center_crop_ansi ['\x1b', '[', '3', '1', 'm', 'A', 'B', 'C'] 2 none)).length = 2 ∧
    hasDangling (center_crop_ansi ['\x1b', '[', '3', '1', 'm', 'A', 'B', 'C'] 2 none) = false ∧
    (strip_ansi (pad_ansi ['\x1b', '[', '3', '1', 'm', 'A', 'B', 'C'] 2)).length = max 2 3 := by
  have hwf : WellFormedAnsi ['\x1b', '[', '3', '1', 'm', 'A', 'B', 'C'] :=
    ⟨[AnsiTok.esc ['3', '1'], AnsiTok.vis 'A', AnsiTok.vis 'B', AnsiTok.vis 'C'],
      by intro t ht; fin_cases ht <;> simp [goodTok], by decide⟩
  have h := claim_C4_width_invariants ['\x1b', '[', '3', '1', 'm', 'A', 'B', 'C'] 2 none
  refine ⟨hwf, by decide, h.2.1 hwf (by decide), h.2.2 hwf, ?_⟩
  have hp := h.1
  rw [hp]
  decide


/-- C1: `_unit_from` is a pure, total function of its seed: it equals the
top 53 bits of the avalanche mix `_mix64(seed)` scaled by `2^-53`, lies in
`[0, 1)`, and equal seeds always yield equal outputs. -/
theorem claim_C1_unit_from (seed : ℕ) :
    _unit_from seed = ((_mix64 seed >>> 11 : ℕ) : ℚ) / 2 ^ 53 ∧
    0 ≤ _unit_from seed ∧ _unit_from seed < 1 ∧
    ∀ other : ℕ, seed = other → _unit_from seed = _unit_from other := by
  have hpow : ((1 <<< 53 : ℕ) : ℚ) = 2 ^ 53 := by
    norm_num [Nat.shiftLeft_eq]
  refine ⟨?_, ?_, ?_, ?_⟩
  · unfold _unit_from
    rw [hpow]
  · unfold _unit_from
    positivity
  · unfold _unit_from
    rw [hpow, div_lt_one (by positivity)]
    exact_mod_cast shifted_mix64_lt seed
  · intro other h
    rw [h]

theorem claim_C1_witness :
    _unit_from 42 = _unit_from 42 ∧ _unit_from 42 < 1 :=
  ⟨(claim_C1_unit_from 42).2.2.2 42 rfl, (claim_C1_unit_from 42).2.2.1⟩

/-! ### Backdrop mirroring (`mirror_line`, rendering.py 128-141) -/

/-- The character-swap table used by `mirror_line` (`str.maketrans`). -/
def mirrorSwap (c : Char) : Char :=
  if c = '/' then '\\'
  else if c = '\\' then '/'
  else if c = '(' then ')'
  else if c = ')' then '('
  else if c = '<' then '>'
  else if c = '>' then '<'
  else if c = '[' then ']'
  else if c = ']' then '['
  else if c = '\x7b' then '\x7d'
  else if c = '\x7d' then '\x7b'
  else c

/-- `mirror_line(line) = line[::-1].translate(swaps)`. -/
def mirror_line (line : List Char) : List Char :=
  line.reverse.map mirrorSwap

theorem mirrorSwap_involutive (c : Char) : mirrorSwap (mirrorSwap c) = c := by
  by_cases h1 : c = '/'
  · subst h1; decide
  by_cases h2 : c = '\\'
  · subst h2; decide
  by_cases h3 : c = '('
  · subst h3; decide
  by_cases h4 : c = ')'
  · subst h4; decide
  by_cases h5 : c = '<'
  · subst h5; decide
  by_cases h6 : c = '>'
  · subst h6; decide
  by_cases h7 : c = '['
  · subst h7; decide
  by_cases h8 : c = ']'
  · subst h8; decide
  by_cases h9 : c = '\x7b'
  · subst h9; decide
  by_cases h10 : c = '\x7d'
  · subst h10; decide
  have hc : mirrorSwap c = c := by
    unfold mirrorSwap
    rw [if_neg h1, if_neg h2, if_neg h3, if_neg h4, if_neg h5, if_neg h6,
      if_neg h7, if_neg h8, if_neg h9, if_neg h10]
  rw [hc, hc]

/-- C9: `mirror_line` is an involution: reversing is self-inverse and the
swap table is symmetric, so mirroring twice restores every line. -/
theorem claim_C9_mirror_involution (line : List Char) :
    mirror_line (mirror_line line) = line := by
  unfold mirror_line
  rw [List.map_reverse, List.map_map]
  have hid : mirrorSwap ∘ mirrorSwap = id := funext mirrorSwap_involutive
  rw [hid, List.map_id, List.reverse_reverse]

/-! ### Opponent model and health bar (models.py 206-222,
rendering.py 1638-1652) -/

/-- A complete SGR escape sequence `\x1b[` + params + `m`. -/
def escSeq (ps : List Char) : List Char := '\x1b' :: '[' :: (ps ++ ['m'])

/-- Modelled from the spec: the `ANSI` escape constants module
(`app.ui.ansi`) is not under src/; the spec describes them as standard
`\x1b[...m` SGR codes, so the standard foreground codes are used.
White foreground. -/
def ANSI_FG_WHITE : List Char := escSeq ['3', '7']

/-- Modelled from the spec: standard SGR green foreground (see
`ANSI_FG_WHITE`). -/
def ANSI_FG_GREEN : List Char := escSeq ['3', '2']

/-- Modelled from the spec: standard SGR reset (see `ANSI_FG_WHITE`). -/
def ANSI_RESET : List Char := escSeq ['0']

/-- Modelled from the spec: standard SGR dim attribute (see
`ANSI_FG_WHITE`). -/
def ANSI_DIM : List Char := escSeq ['2']

/-- Modelled from the spec: standard SGR yellow foreground (see
`ANSI_FG_WHITE`). -/
def ANSI_FG_YELLOW : List Char := escSeq ['3', '3']

/-- `OPPONENT_ART_WIDTH = 10` (main.py 27; rendering.py imports the same
constant from its constants module). -/
def OPPONENT_ART_WIDTH : ℕ := 10

/-- The `Opponent` dataclass (models.py 206-222). -/
structure Opponent where
  name : List Char
  level : ℤ
  hp : ℤ
  max_hp : ℤ
  atk : ℤ
  defense : ℤ
  stunned_turns : ℤ
  action_chance : ℚ
  melted : Bool
  art_lines : List (List Char)
  art_color : List Char
  color_map : List (List Char)
  arrival : List Char
  variation : ℚ := 0
  jitter_stability : Bool := true
deriving Inhabited, DecidableEq

/-- The clamped fill count of `format_opponent_bar` (rendering.py
1639-1644): `ratio` is 0 when `max_hp <= 0`, else `hp/max_hp` clamped to
`[0,1]`; `filled = int(ratio * (OPPONENT_ART_WIDTH - 2))` clamped to
`[0, OPPONENT_ART_WIDTH - 2]`. -/
def barFilled (o : Opponent) : ℤ :=
  max 0 (min ((OPPONENT_ART_WIDTH : ℤ) - 2)
    (pyTrunc ((if o.max_hp ≤ 0 then (0 : ℚ)
        else max 0 (min 1 ((o.hp : ℚ) / (o.max_hp : ℚ))))
      * (((OPPONENT_ART_WIDTH : ℤ) - 2 : ℤ) : ℚ))))

/-- `format_opponent_bar(opponent)` (rendering.py 1638-1652): white `[`,
green `#` fill, white `_` remainder, `]`.  The dead local `bar` of the
source (computed and never used) is omitted. -/
def format_opponent_bar (o : Opponent) : List Char :=
  ANSI_FG_WHITE ++ ['['] ++ ANSI_FG_GREEN
    ++ List.replicate (barFilled o).toNat '#'
    ++ ANSI_FG_WHITE
    ++ List.replicate (((OPPONENT_ART_WIDTH : ℤ) - 2) - barFilled o).toNat '_'
    ++ [']']

theorem strip_ansi_nil : strip_ansi [] = [] := rfl

theorem strip_ansi_cons_ne {c : Char} (rest : List Char) (h : c ≠ '\x1b') :
    strip_ansi (c :: rest) = c :: strip_ansi rest := by
  unfold strip_ansi
  rw [show (c :: rest).length = rest.length + 1 by simp]
  rw [stripGo_cons_ne _ _ h]

theorem strip_ansi_escSeq {ps : List Char}
    (hps : ∀ c ∈ ps, c.isDigit = true ∨ c = ';') (rest : List Char) :
    strip_ansi (escSeq ps ++ rest) = strip_ansi rest := by
  have hshape : escSeq ps ++ rest = '\x1b' :: '[' :: (ps ++ 'm' :: rest) := by
    simp [escSeq]
  rw [hshape]
  unfold strip_ansi
  rw [show ('\x1b' :: '[' :: (ps ++ 'm' :: rest)).length
      = (ps.length + rest.length + 2) + 1 by simp; omega]
  rw [stripGo_esc_match _ (matchSgr_params hps rest)]
  exact strip_ansi_go _ rest (by omega)

theorem strip_ansi_replicate {c : Char} (h : c ≠ '\x1b') (n : ℕ)
    (rest : List Char) :
    strip_ansi (List.replicate n c ++ rest)
      = List.replicate n c ++ strip_ansi rest := by
  induction n with
  | zero => simp
  | succ k ih =>
    rw [List.replicate_succ, List.cons_append, strip_ansi_cons_ne _ h, ih]
    rfl

/-- C10: `format_opponent_bar` is total on every `Opponent` — the
`hp/max_hp` ratio is guarded and clamped — and its output always has
visible length exactly `OPPONENT_ART_WIDTH = 10`: one `[`, `filled`
characters `#`, `8 - filled` characters `_` and one `]`, with `filled`
clamped to `[0, 8]`. -/
theorem claim_C10_opponent_bar (o : Opponent) :
    (strip_ansi (format_opponent_bar o)).length = OPPONENT_ART_WIDTH ∧
    ∃ filled : ℕ, filled ≤ 8 ∧
      format_opponent_bar o
        = ANSI_FG_WHITE ++ ['['] ++ ANSI_FG_GREEN
            ++ List.replicate filled '#' ++ ANSI_FG_WHITE
            ++ List.replicate (8 - filled) '_' ++ [']'] := by
  have hb : 0 ≤ barFilled o ∧ barFilled o ≤ 8 := by
    unfold barFilled
    rw [show ((OPPONENT_ART_WIDTH : ℤ) - 2) = 8 by norm_num [OPPONENT_ART_WIDTH]]
    constructor
    · exact le_max_left _ _
    · exact max_le (by norm_num) (min_le_left _ _)
  have hE : (((OPPONENT_ART_WIDTH : ℤ) - 2) - barFilled o).toNat
      = 8 - (barFilled o).toNat := by
    rw [show ((OPPONENT_ART_WIDTH : ℤ) - 2) = 8 by norm_num [OPPONENT_ART_WIDTH]]
    omega
  have hF : (barFilled o).toNat ≤ 8 := by omega
  constructor
  · unfold format_opponent_bar
    rw [hE]
    simp only [ANSI_FG_WHITE, ANSI_FG_GREEN, List.append_assoc,
      List.singleton_append, List.cons_append, List.nil_append]
    rw [strip_ansi_escSeq (by decide), strip_ansi_cons_ne _ (by decide),
      strip_ansi_escSeq (by decide), strip_ansi_replicate (by decide),
      strip_ansi_escSeq (by decide), strip_ansi_replicate (by decide),
      strip_ansi_cons_ne _ (by decide), strip_ansi_nil]
    simp only [List.length_cons, List.length_append, List.length_replicate,
      List.length_nil, OPPONENT_ART_WIDTH]
    omega
  · exact ⟨(barFilled o).toNat, hF, by unfold format_opponent_bar; rw [hE]⟩


/-! ### Procedural palette: random bands (`_random_band_ranges`,
`_random_color_code`, rendering.py 57-96).  Float arithmetic is embedded
over `ℚ`; the session seed (drawn once per process from a secure source)
is an explicit parameter. -/

/-- One value of the `bands` table: a dict entry (possibly with missing
keys — Python supplies `{}` when the band is absent) or a non-dict value,
which selects the bright-to-dark gradient branch. -/
inductive BandVal where
  | entry (lMin lMax sMin sMax : Option ℚ)
  | nonDict

/-- The `random` configuration dict: every key optional. -/
structure RandomConfig where
  bands : ℕ → Option BandVal := fun _ => none
  s_min : Option ℚ := none
  s_max : Option ℚ := none
  l_bright_min : Option ℚ := none
  l_bright_max : Option ℚ := none
  l_dark_min : Option ℚ := none
  l_dark_max : Option ℚ := none

/-- `_random_band_ranges(band, random_config)` (rendering.py 57-80):
resolve the lightness/saturation ranges for a band, then clamp them to
`[0,1]` with `l_max ≥ l_min`, `s_max ≥ s_min`. -/
def _random_band_ranges (band : ℕ) (cfg : RandomConfig) : ℚ × ℚ × ℚ × ℚ :=
  let bandEntry := (cfg.bands band).getD (BandVal.entry none none none none)
  let sMin0 := cfg.s_min.getD (4/10)
  let sMax0 := cfg.s_max.getD (9/10)
  let raw :=
    match bandEntry with
    | BandVal.entry elMin elMax esMin esMax =>
      (elMin.getD (2/10), elMax.getD (8/10), esMin.getD sMin0, esMax.getD sMax0)
    | BandVal.nonDict =>
      let brightMin := cfg.l_bright_min.getD (3/4)
      let brightMax := cfg.l_bright_max.getD (95/100)
      let darkMin := cfg.l_dark_min.getD (18/100)
      let darkMax := cfg.l_dark_max.getD (45/100)
      let rank := band % 5
      let t : ℚ := if rank ≠ 0 then (rank : ℚ) / 4 else 0
      (brightMin + (darkMin - brightMin) * t,
        brightMax + (darkMax - brightMax) * t, sMin0, sMax0)
  match raw with
  | (lMin, lMax, sMin, sMax) =>
    let lMin2 := max 0 (min 1 lMin)
    let lMax2 := max lMin2 (min 1 lMax)
    let sMin2 := max 0 (min 1 sMin)
    let sMax2 := max sMin2 (min 1 sMax)
    (lMin2, lMax2, sMin2, sMax2)

/-- The helper `_v` of Python `colorsys` with the hue wrapped by
`hue % 1.0`; the float constants `ONE_THIRD`, `ONE_SIXTH`, `TWO_THIRD`
are idealised to exact rationals. -/
def hlsV (m1 m2 hue : ℚ) : ℚ :=
  let hue2 := hue - ⌊hue⌋
  if hue2 < 1/6 then m1 + (m2 - m1) * hue2 * 6
  else if hue2 < 1/2 then m2
  else if hue2 < 2/3 then m1 + (m2 - m1) * (2/3 - hue2) * 6
  else m1

/-- `colorsys.hls_to_rgb(h, l, s)` over `ℚ`. -/
def hls_to_rgb (h l s : ℚ) : ℚ × ℚ × ℚ :=
  if s = 0 then (l, l, l)
  else
    let m2 := if l ≤ 1/2 then l * (1 + s) else l + s - l * s
    let m1 := 2 * l - m2
    (hlsV m1 m2 (h + 1/3), hlsV m1 m2 h, hlsV m1 m2 (h - 1/3))

/-- Decimal rendering of `int(q)` for the non-negative channel values. -/
def pyIntStr (q : ℚ) : List Char := Nat.toDigits 10 (pyTrunc q).toNat

/-- The seed of the HSL samples (rendering.py 88-91): bands 0-4 mix the
per-asset seed base and the cell coordinates; bands 5-9 use only the
session seed and the band. -/
def colorSeed (band x y seedBase sessionSeed : ℕ) : ℕ :=
  if band < 5 then
    (seedBase <<< 1) ^^^ (band * 0x9E3779B1) ^^^ (x * 0x85EBCA77) ^^^ (y * 0xC2B2AE3D)
  else
    (sessionSeed <<< 1) ^^^ (band * 0x9E3779B1)

/-- `_random_color_code(mask_char, x, y, seed_base, random_config)`
(rendering.py 83-96); `cfg = none` models a missing/empty/non-dict
`random_config`, the early-return branch. -/
def _random_color_code (maskChar : Char) (x y : ℕ) (seedBase : ℕ)
    (cfg : Option RandomConfig) (sessionSeed : ℕ) : List Char :=
  if maskChar.isDigit = true then
    match cfg with
    | none => []
    | some rc =>
      let band := maskChar.toNat - '0'.toNat
      match _random_band_ranges band rc with
      | (lMin, lMax, sMin, sMax) =>
        let seed := colorSeed band x y seedBase sessionSeed
        let h := _unit_from seed
        let s := sMin + (_unit_from (seed + 1) * (sMax - sMin))
        let l := lMin + (_unit_from (seed + 2) * (lMax - lMin))
        match hls_to_rgb h l s with
        | (r, g, b) =>
          escSeq (['3', '8', ';', '2', ';'] ++ pyIntStr (r * 255) ++ [';']
            ++ pyIntStr (g * 255) ++ [';'] ++ pyIntStr (b * 255))
  else []

theorem colorSeed_session {band : ℕ} (h : 5 ≤ band)
    (x y seedBase x2 y2 seedBase2 sessionSeed : ℕ) :
    colorSeed band x y seedBase sessionSeed
      = colorSeed band x2 y2 seedBase2 sessionSeed := by
  unfold colorSeed
  rw [if_neg (by omega), if_neg (by omega)]

/-- C2: for a digit mask-code with band index ≥ 5, the produced color
escape is a function of the band, the session seed and the configuration
alone — any two calls with different `(x, y)` and seed bases agree; for
bands 0-4 the seed mixes `(band, x, y, seed_base)`. -/
theorem claim_C2_session_stable (maskChar : Char) (x y seedBase x2 y2 seedBase2
    sessionSeed : ℕ) (rc : RandomConfig)
    (hdigit : maskChar.isDigit = true)
    (hband : 5 ≤ maskChar.toNat - '0'.toNat) :
    _random_color_code maskChar x y seedBase (some rc) sessionSeed
      = _random_color_code maskChar x2 y2 seedBase2 (some rc) sessionSeed ∧
    (∀ band : ℕ, band < 5 →
      colorSeed band x y seedBase sessionSeed
        = (seedBase <<< 1) ^^^ (band * 0x9E3779B1) ^^^ (x * 0x85EBCA77)
          ^^^ (y * 0xC2B2AE3D)) := by
  constructor
  · unfold _random_color_code
    rw [if_pos hdigit, if_pos hdigit]
    simp only [colorSeed_session hband x y seedBase x2 y2 seedBase2 sessionSeed]
  · intro band hlt
    unfold colorSeed
    rw [if_pos hlt]

theorem claim_C2_witness :
    _random_color_code '7' 1 2 3 (some {}) 99
      = _random_color_code '7' 40 50 60 (some {}) 99 :=
  (claim_C2_session_stable '7' 1 2 3 40 50 60 99 {} (by decide) (by decide)).1


/-! ### Scene gap sizing (`compute_scene_gap_target`, rendering.py
1025-1041) -/

/-- The scene-record fields consulted by the gap computation; `none`
models an absent key, the empty list / `false` a falsy value. -/
structure SceneData where
  left : List (List Char) := []
  objects_left : Bool := false
  gap_min : Option ℤ := none
  gap_width : Option ℤ := none

/-- The configured base gap (rendering.py 1028-1032): `gap_min`
(default 2) when the scene has a mirrored or object backdrop, else
`gap_width` (default 20). -/
def sceneGapBase (s : SceneData) : ℤ :=
  if s.left ≠ [] ∨ s.objects_left = true then s.gap_min.getD 2
  else s.gap_width.getD 20

/-- `compute_scene_gap_target(scene_data, opponents)` (rendering.py
1025-1041); a falsy `scene_data` is `none`. -/
def compute_scene_gap_target (sceneData : Option SceneData)
    (opponents : List Opponent) : ℤ :=
  match sceneData with
  | none => 0
  | some s =>
    let gapBase := sceneGapBase s
    let opponentBlocks := opponents.filter (fun m => !m.art_lines.isEmpty)
    if opponentBlocks.isEmpty then gapBase
    else
      let widestBlock : ℤ := max (OPPONENT_ART_WIDTH : ℤ) 0
      let blocksWidth := widestBlock * opponentBlocks.length
      let interPad : ℤ := 2
      let gapPad : ℤ := 2
      let total := blocksWidth + interPad * max 0 ((opponentBlocks.length : ℤ) - 1)
        + gapPad * 2
      max gapBase total

/-- C5: with `n ≥ 1` opponents all having non-empty art, the gap target is
the configured base gap widened to `n*10 + 2*(n-1) + 2*2` when needed
(block width 10, inter-block pad 2, edge pad 2 per side). -/
theorem claim_C5_gap_target (s : SceneData) (opponents : List Opponent)
    (n : ℕ) (hn : opponents.length = n) (h1 : 1 ≤ n)
    (hart : ∀ o ∈ opponents, o.art_lines ≠ []) :
    compute_scene_gap_target (some s) opponents
      = max (sceneGapBase s) ((n : ℤ) * 10 + 2 * ((n : ℤ) - 1) + 2 * 2) := by
  have hfilter : opponents.filter (fun m => !m.art_lines.isEmpty) = opponents := by
    apply List.filter_eq_self.mpr
    intro o ho
    simpa [List.isEmpty_iff] using hart o ho
  have hne : opponents.isEmpty = false := by
    cases opponents with
    | nil => simp at hn; omega
    | cons a l => rfl
  simp only [compute_scene_gap_target, hfilter, hne, Bool.false_eq_true,
    if_false, hn]
  have hmax : max (0 : ℤ) ((n : ℤ) - 1) = (n : ℤ) - 1 := by omega
  rw [hmax]
  have hw : max ((OPPONENT_ART_WIDTH : ℕ) : ℤ) 0 = 10 := by
    norm_num [OPPONENT_ART_WIDTH]
  rw [hw]
  congr 1
  ring

/-- A concrete opponent for witnesses. -/
def sampleOpponent : Opponent :=
  { name := ['r', 'a', 't'], level := 1, hp := 5, max_hp := 5, atk := 1,
    defense := 0, stunned_turns := 0, action_chance := 1, melted := false,
    art_lines := [['A'], ['B']], art_color := [], color_map := [],
    arrival := [] }

theorem claim_C5_witness :
    compute_scene_gap_target (some { gap_width := some 20 })
      [sampleOpponent, sampleOpponent, sampleOpponent] = 38 := by
  have h := claim_C5_gap_target { gap_width := some 20 }
    [sampleOpponent, sampleOpponent, sampleOpponent] 3 rfl (by omega)
    (by intro o ho; fin_cases ho <;> simp [sampleOpponent])
  rw [h]
  norm_num [sceneGapBase]


/-! ### The melt animation (`melt_opponent`, rendering.py 1291-1341) -/

/-- The `Player` field consulted by the embedded rendering code: the melt
delay reads only `battle_speed` (combat.py 42-48); the remaining dataclass
fields are never read here and are omitted. -/
structure Player where
  battle_speed : String
deriving Inhabited, DecidableEq

/-- `battle_action_delay(player)` (combat.py 42-48): 0.2 / 0.45 / 0.75
seconds by speed, defaulting to normal. -/
def battle_action_delay (p : Player) : ℚ :=
  if p.battle_speed = "fast" then 1/5
  else if p.battle_speed = "normal" then 9/20
  else if p.battle_speed = "slow" then 3/4
  else 9/20

/-- The inter-frame sleep of the melt loop:
`max(0.05, battle_action_delay(player) / 3)` (rendering.py 1341). -/
def meltDelay (p : Player) : ℚ := max (5/100) (battle_action_delay p / 3)

/-- The centred display rows of the melted opponent (rendering.py
1309-1313): truncate to the block width, strip trailing spaces, left-align
to the longest row, centre in the block width. -/
def meltDisplayLines (artLines : List (List Char)) : List (List Char) :=
  let width := OPPONENT_ART_WIDTH
  let rawLines := artLines.map (fun l => pyRstrip (l.take width))
  let maxLen := (rawLines.map List.length).foldr max 0
  let leftAligned := rawLines.map (fun l => pyLjust l maxLen)
  leftAligned.map (fun l => pyCenter l width)

/-- One melt frame's `art_overrides` (rendering.py 1316-1326): the
opponent at `index` is replaced by a `dataclasses.replace` copy whose top
`removed` display rows are blanked and whose hp is 0; every other
opponent is passed through unchanged. -/
def meltOverrides (opponents : List Opponent) (index : ℕ)
    (displayLines : List (List Char)) (removed : ℕ) : List Opponent :=
  let width := OPPONENT_ART_WIDTH
  let trimmed := List.replicate removed (List.replicate width ' ')
    ++ displayLines.drop removed
  opponents.mapIdx (fun i cur =>
    if i = index then { cur with art_lines := trimmed, hp := 0 } else cur)

/-- One render request issued by the melt loop (rendering.py 1327-1341):
the live list is passed as `opponents`, the overrides as `art_opponents`
(keyword `art_opponents=art_overrides`), with
`manual_lines_indices = {index}` and the loop's sleep after it. -/
structure MeltRenderCall where
  opponents : List Opponent
  art_opponents : List Opponent
  manual_index : ℕ
  delay : ℚ
deriving Inhabited, DecidableEq

/-- `melt_opponent(...)` (rendering.py 1291-1341) as a state transformer
on the live opponents list: the result is the sequence of render calls
and the live list as it stands when the function returns.  The source
contains no assignment into `opponents` — each frame builds fresh
`replace(...)` copies — so the післяstate is the input list. -/
def melt_opponent (player : Player) (opponents : List Opponent)
    (index : Option ℤ) : List MeltRenderCall × List Opponent :=
  match index with
  | none => ([], opponents)
  | some i =>
    if i < 0 ∨ (opponents.length : ℤ) ≤ i then ([], opponents)
    else
      let idx := i.toNat
      let opponent := opponents.getD idx default
      if opponent.art_lines.isEmpty then ([], opponents)
      else
        let displayLines := meltDisplayLines opponent.art_lines
        ((List.range displayLines.length).map (fun k =>
          { opponents := opponents,
            art_opponents := meltOverrides opponents idx displayLines (k + 1),
            manual_index := idx,
            delay := meltDelay player }), opponents)

theorem getD_map_range {α : Type} [Inhabited α] {H k : ℕ} (f : ℕ → α)
    (hk : k < H) : (((List.range H).map f).getD k default) = f k := by
  rw [List.getD_eq_getElem _ _ (by simpa using hk)]
  simp

theorem melt_opponent_calls (player : Player) (opponents : List Opponent)
    (i : ℕ) (hi : i < opponents.length)
    (hart : (opponents.getD i default).art_lines ≠ []) :
    melt_opponent player opponents (some (i : ℤ))
      = ((List.range (meltDisplayLines (opponents.getD i default).art_lines).length).map
          (fun k =>
            { opponents := opponents,
              art_opponents := meltOverrides opponents i
                (meltDisplayLines (opponents.getD i default).art_lines) (k + 1),
              manual_index := i,
              delay := meltDelay player }), opponents) := by
  simp only [melt_opponent, Int.toNat_natCast]
  rw [if_neg (by push_neg; constructor <;> [positivity; exact_mod_cast hi])]
  rw [if_neg (by simpa [List.isEmpty_iff] using hart)]


theorem getD_mapIdx {α : Type} [Inhabited α] (l : List α) (g : ℕ → α → α)
    (j : ℕ) (hj : j < l.length) :
    (l.mapIdx g).getD j default = g j (l.getD j default) := by
  rw [List.getD_eq_getElem _ _ (by simpa using hj),
    List.getD_eq_getElem _ _ hj]
  have h2 := List.get_mapIdx l g j hj
  simp only [List.get_eq_getElem] at h2
  exact h2

/-- C3: for a valid opponent index whose displayed art has H rows, the
melt sequence issues exactly H render calls; the k-th call (1-based k)
overrides the targeted opponent with a copy whose top k display rows are
blanked — so the blanked prefix strictly grows from 1 to H — with hp = 0
from the first frame on, leaving the other opponents untouched, and every
call sleeps `max(0.05, battle_action_delay(player) / 3)`. -/
theorem claim_C3_melt_frames (player : Player) (opponents : List Opponent)
    (i : ℕ) (hi : i < opponents.length)
    (hart : (opponents.getD i default).art_lines ≠ []) :
    (meltDisplayLines (opponents.getD i default).art_lines).length
        = (opponents.getD i default).art_lines.length ∧
    (melt_opponent player opponents (some (i : ℤ))).1.length
        = (meltDisplayLines (opponents.getD i default).art_lines).length ∧
    ∀ k, k < (meltDisplayLines (opponents.getD i default).art_lines).length →
      ((melt_opponent player opponents (some (i : ℤ))).1.getD k default)
        = { opponents := opponents,
            art_opponents := opponents.mapIdx (fun j cur =>
              if j = i then
                { cur with
                  art_lines := List.replicate (k + 1)
                      (List.replicate OPPONENT_ART_WIDTH ' ')
                    ++ (meltDisplayLines
                        (opponents.getD i default).art_lines).drop (k + 1),
                  hp := 0 }
              else cur),
            manual_index := i,
            delay := max (5/100) (battle_action_delay player / 3) } := by
  refine ⟨?_, ?_, ?_⟩
  · simp [meltDisplayLines]
  · rw [melt_opponent_calls player opponents i hi hart]
    simp
  · intro k hk
    rw [melt_opponent_calls player opponents i hi hart]
    simp only
    rw [getD_map_range _ hk]
    simp [meltOverrides, meltDelay]

theorem claim_C3_witness :
    (melt_opponent ⟨"normal"⟩ [sampleOpponent] (some ((0 : ℕ) : ℤ))).1.length = 2 ∧
    ((melt_opponent ⟨"normal"⟩ [sampleOpponent]
        (some ((0 : ℕ) : ℤ))).1.getD 0 default).delay = 3/20 := by
  have h := claim_C3_melt_frames ⟨"normal"⟩ [sampleOpponent] 0 (by decide)
    (by decide)
  constructor
  · rw [h.2.1]
    decide
  · rw [h.2.2 0 (by decide)]
    show (5/100 : ℚ) ⊔ (battle_action_delay ⟨"normal"⟩ / 3) = 3/20
    rw [show battle_action_delay ⟨"normal"⟩ = 9/20 from by simp [battle_action_delay]]
    rw [max_eq_right (by norm_num)]
    norm_num

/-- C8 counterexample: on a concrete melt the live opponents list is
returned unchanged — the targeted record keeps its art rows and its
non-zero hp — and the per-frame overrides keep the full row count: the
scheduler never truncates, nor even touches, the record in the live
list. -/
theorem claim_C8_counterexample :
    (melt_opponent ⟨"normal"⟩ [sampleOpponent] (some ((0 : ℕ) : ℤ))).2
        = [sampleOpponent] ∧
    sampleOpponent.hp = 5 ∧ sampleOpponent.art_lines.length = 2 ∧
    ∀ c ∈ (melt_opponent ⟨"normal"⟩ [sampleOpponent] (some ((0 : ℕ) : ℤ))).1,
      c.opponents = [sampleOpponent] ∧
      ∀ o ∈ c.art_opponents, o.art_lines.length = 2 := by
  decide

/-- C8 (amended): during a melt the Animation Scheduler does not mutate
the live opponents list: `melt_opponent` returns it unchanged and passes
it unchanged to every render call; the truncation effect lives only in
the per-frame override copies (`dataclasses.replace`), whose record at
the targeted index has hp = 0 and art rows blanked in place — the row
count is preserved, not truncated. -/
theorem claim_C8_no_mutation (player : Player) (opponents : List Opponent)
    (i : ℕ) (hi : i < opponents.length)
    (hart : (opponents.getD i default).art_lines ≠ []) :
    (melt_opponent player opponents (some (i : ℤ))).2 = opponents ∧
    ∀ c ∈ (melt_opponent player opponents (some (i : ℤ))).1,
      c.opponents = opponents ∧
      (c.art_opponents.getD i default).hp = 0 ∧
      (c.art_opponents.getD i default).art_lines.length
        = (opponents.getD i default).art_lines.length := by
  rw [melt_opponent_calls player opponents i hi hart]
  refine ⟨rfl, ?_⟩
  intro c hc
  simp only [List.mem_map, List.mem_range] at hc
  obtain ⟨k, hk, rfl⟩ := hc
  refine ⟨rfl, ?_, ?_⟩
  · unfold meltOverrides
    rw [getD_mapIdx opponents _ i hi]
    simp
  · unfold meltOverrides
    rw [getD_mapIdx opponents _ i hi]
    simp only [meltDisplayLines, List.length_map,
      List.getD_eq_getElem?_getD] at hk
    simp [meltDisplayLines, List.getD_eq_getElem?_getD]
    omega

theorem claim_C8_witness :
    (melt_opponent ⟨"fast"⟩ [sampleOpponent] (some ((0 : ℕ) : ℤ))).2
        = [sampleOpponent] ∧
    ∀ c ∈ (melt_opponent ⟨"fast"⟩ [sampleOpponent] (some ((0 : ℕ) : ℤ))).1,
      c.opponents = [sampleOpponent] := by
  have h := claim_C8_no_mutation ⟨"fast"⟩ [sampleOpponent] 0 (by decide)
    (by decide)
  exact ⟨h.1, fun c hc => (h.2 c hc).1⟩


/-! ### Palette resolution (`build_color_by_key`, rendering.py 667-711;
the identical per-entry logic appears in render_venue_art 176-208 and
render_venue_objects 345-377) -/

/-- Modelled from the spec: standard SGR cyan foreground (see
`ANSI_FG_WHITE`). -/
def ANSI_FG_CYAN : List Char := escSeq ['3', '6']

/-- Modelled from the spec: standard SGR red foreground (see
`ANSI_FG_WHITE`). -/
def ANSI_FG_RED : List Char := escSeq ['3', '1']

/-- Modelled from the spec: standard SGR blue foreground (see
`ANSI_FG_WHITE`). -/
def ANSI_FG_BLUE : List Char := escSeq ['3', '4']

/-- The fixed `COLOR_BY_NAME` table (rendering.py 26-33). -/
def COLOR_BY_NAME (name : List Char) : Option (List Char) :=
  if name = "white".toList then some ANSI_FG_WHITE
  else if name = "cyan".toList then some ANSI_FG_CYAN
  else if name = "green".toList then some ANSI_FG_GREEN
  else if name = "yellow".toList then some ANSI_FG_YELLOW
  else if name = "red".toList then some ANSI_FG_RED
  else if name = "blue".toList then some ANSI_FG_BLUE
  else none

/-- Python `s.strip()`. -/
def pyStrip (s : List Char) : List Char :=
  ((s.dropWhile Char.isWhitespace).reverse.dropWhile Char.isWhitespace).reverse

/-- The numeric value of one hex digit, as accepted by `int(_, 16)` on the
two-character slices (palette hex strings contain plain hex digits; the
additional sign/whitespace forms `int` tolerates never parse as a digit
pair here). -/
def hexDigitVal (c : Char) : Option ℕ :=
  if '0' ≤ c ∧ c ≤ '9' then some (c.toNat - '0'.toNat)
  else if 'a' ≤ c ∧ c ≤ 'f' then some (c.toNat - 'a'.toNat + 10)
  else if 'A' ≤ c ∧ c ≤ 'F' then some (c.toNat - 'A'.toNat + 10)
  else none

/-- `int(value[i:i+2], 16)` on a two-character slice. -/
def hexPair : List Char → Option ℕ
  | a :: b :: _ =>
    match hexDigitVal a, hexDigitVal b with
    | some x, some y => some (16 * x + y)
    | _, _ => none
  | _ => none

/-- The nested `truecolor(code)` helper (rendering.py 667-677): strip
leading `#`, require exactly 6 remaining characters, parse three hex byte
pairs into a truecolor escape; any failure yields the empty string. -/
def truecolor (code : List Char) : List Char :=
  let value := code.dropWhile (· = '#')
  if value.length ≠ 6 then []
  else
    match hexPair value, hexPair (value.drop 2), hexPair (value.drop 4) with
    | some r, some g, some b =>
      escSeq (['3', '8', ';', '2', ';'] ++ Nat.toDigits 10 r ++ [';']
        ++ Nat.toDigits 10 g ++ [';'] ++ Nat.toDigits 10 b)
    | _, _, _ => []

/-- A palette entry: a dict with optional string `hex`/`name` fields
(non-string values degrade to the empty string), a bare string name, or
any other value (skipped entirely). -/
inductive ColorEntry where
  | dict (hex : Option (List Char)) (nm : Option (List Char))
  | str (s : List Char)
  | other

/-- The hex code considered for an entry (rendering.py 694-698): the
stripped `hex` field if non-empty, else the `#...` suffix of the stripped
name (`name.find("#")`), else empty. -/
def hexCodeOf (hexRaw nameRaw : List Char) : List Char :=
  let hex0 := pyStrip hexRaw
  if hex0 = [] then
    match (pyStrip nameRaw).findIdx? (· = '#') with
    | some i => (pyStrip nameRaw).drop i
    | none => []
  else hex0

/-- The name fallback (rendering.py 704-710): `brown` and `gray`/`grey`
map to dimmed codes, anything else goes through `COLOR_BY_NAME` with
white as the final default. -/
def nameFallback (name : List Char) : List Char :=
  let lowered := name.map Char.toLower
  if lowered = "brown".toList then ANSI_FG_YELLOW ++ ANSI_DIM
  else if lowered = "gray".toList ∨ lowered = "grey".toList then
    ANSI_FG_WHITE ++ ANSI_DIM
  else
    match COLOR_BY_NAME lowered with
    | some c => c
    | none => ANSI_FG_WHITE

/-- Resolution of the hex/name pair of one entry (rendering.py 694-710):
if a hex code is present and `truecolor` accepts it, that escape wins;
otherwise resolution falls through to the name fallback. -/
def resolveHexName (hexRaw nameRaw : List Char) : List Char :=
  if hexCodeOf hexRaw nameRaw ≠ [] ∧ truecolor (hexCodeOf hexRaw nameRaw) ≠ []
  then truecolor (hexCodeOf hexRaw nameRaw)
  else nameFallback (pyStrip nameRaw)

/-- Per-entry resolution (rendering.py 686-693): dict entries contribute
their `hex`/`name` fields, strings are names, anything else is skipped
(`continue`). -/
def resolveColorEntry (entry : ColorEntry) : Option (List Char) :=
  match entry with
  | ColorEntry.dict hexF nameF =>
    some (resolveHexName (hexF.getD []) (nameF.getD []))
  | ColorEntry.str s => some (resolveHexName [] s)
  | ColorEntry.other => none

/-- Python `key in _MASK_DIGITS`: the key is one of the ten single-digit
strings. -/
def isDigitKey (key : String) : Bool :=
  match key.toList with
  | [c] => c.isDigit
  | _ => false

/-- `build_color_by_key()` (rendering.py 681-711): every entry except the
`random` key and digit bands resolves to an escape code; the parallel
`color_rgb_by_key` map (consumed only by the jitter engine) is not
modelled here. -/
def build_color_by_key (colorMap : List (String × ColorEntry)) :
    List (String × List Char) :=
  colorMap.foldl (fun acc kv =>
    if kv.1 = "random" ∨ isDigitKey kv.1 = true then acc
    else
      match resolveColorEntry kv.2 with
      | some code => acc ++ [(kv.1, code)]
      | none => acc) []

/-- One character of `apply_color_mask` (render_venue_art, rendering.py
217-227): digit mask codes go through the random bands; otherwise the
mask character is looked up in `color_by_key`; with a non-empty code the
character is emitted as `code + ch + RESET + base`, else bare.
`maskChar = none` models the empty mask character past the mask row. -/
def applyColorMaskChar (colorByKey : List (String × List Char))
    (randomCfg : Option RandomConfig) (venueSeedBase sessionSeed : ℕ)
    (maskChar : Option Char) (ch : Char) (x y : ℕ)
    (base : List Char) : List Char :=
  let code0 :=
    match maskChar with
    | some mc =>
      if mc.isDigit = true then
        _random_color_code mc x y venueSeedBase randomCfg sessionSeed
      else []
    | none => []
  let code :=
    if code0 = [] then
      match maskChar with
      | some mc => (colorByKey.lookup (String.singleton mc)).getD []
      | none => []
    else code0
  if code ≠ [] then code ++ [ch] ++ ANSI_RESET ++ base else [ch]

theorem nameFallback_ne_nil (name : List Char) : nameFallback name ≠ [] := by
  simp only [nameFallback, COLOR_BY_NAME]
  split_ifs <;> simp [ANSI_FG_WHITE, ANSI_FG_YELLOW, ANSI_FG_CYAN,
    ANSI_FG_GREEN, ANSI_FG_RED, ANSI_FG_BLUE, ANSI_DIM, escSeq]

/-- C7 (amended): a palette entry whose hex string fails to parse to
exactly 6 hex digits does not fall back to "no color": resolution falls
through to the name fallback, which always emits a non-empty escape
(known names' codes, white as default), so a color override IS emitted
for the entry's mask-code and the art character is wrapped in it rather
than shown bare with its base color. -/
theorem claim_C7_bad_hex (hexRaw nameRaw : List Char)
    (hfail : truecolor (hexCodeOf hexRaw nameRaw) = []) :
    resolveHexName hexRaw nameRaw = nameFallback (pyStrip nameRaw) ∧
    resolveHexName hexRaw nameRaw ≠ [] ∧
    ∀ (cbk : List (String × List Char)) (mc ch : Char) (x y sb ss : ℕ),
      cbk.lookup (String.singleton mc) = some (resolveHexName hexRaw nameRaw) →
      mc.isDigit = false →
      applyColorMaskChar cbk none sb ss (some mc) ch x y []
        = resolveHexName hexRaw nameRaw ++ [ch] ++ ANSI_RESET ++ [] := by
  have hres : resolveHexName hexRaw nameRaw = nameFallback (pyStrip nameRaw) := by
    unfold resolveHexName
    rw [if_neg]
    intro h
    exact h.2 hfail
  refine ⟨hres, by rw [hres]; exact nameFallback_ne_nil _, ?_⟩
  intro cbk mc ch x y sb ss hlook hdig
  unfold applyColorMaskChar
  simp only [hdig, Bool.false_eq_true, if_false, reduceIte, hlook,
    Option.getD_some]
  rw [if_pos]
  rw [hres]
  exact nameFallback_ne_nil _

/-- C7 counterexample: the concrete palette `{"t": {"hex": "#12345"}}`
(five hex digits — fails to parse) does not leave `t` uncolored: the
resolver emits the default white escape for `t`, and the art character is
wrapped in it instead of being shown with its base color unchanged. -/
theorem claim_C7_counterexample :
    (build_color_by_key [("t", ColorEntry.dict (some "#12345".toList) none)]).lookup "t"
      = some ANSI_FG_WHITE ∧
    ANSI_FG_WHITE ≠ [] ∧
    applyColorMaskChar
      (build_color_by_key [("t", ColorEntry.dict (some "#12345".toList) none)])
      none 0 0 (some 't') 'X' 0 0 []
      ≠ ['X'] := by
  refine ⟨by decide, by decide, by decide⟩

theorem claim_C7_witness :
    resolveHexName "#12345".toList [] = nameFallback (pyStrip []) ∧
    resolveHexName "#12345".toList [] ≠ [] := by
  have h := claim_C7_bad_hex "#12345".toList [] (by decide)
  exact ⟨h.1, h.2.1⟩


/-! ### Venue-object compositor: layout and blitting
(`render_venue_objects`, rendering.py 428-632).  This embeds the layout
and blit phase — expansion, cumulative x-offsets, strip height, the
character canvas and the mask canvas.  The per-cell seed/jitter metadata
grids (`rand_canvas`, `jitter_canvas`) record colour-resolution inputs
only and do not move any glyph; they, the npc anchor computation and the
final per-row colourisation (`apply_color_mask`) are not modelled. -/

/-- The npc record fields read by the compositor. -/
structure NpcRec where
  art : List (List Char) := []
  color_map : List (List Char) := []
  variation : Option ℚ := none
  jitter_stability : Option Bool := none

/-- An object definition from the objects library. -/
structure ObjDef where
  art : List (List Char) := []
  color_mask : List (List Char) := []
  align : Option ℚ := none
  variation : Option ℚ := none
  jitter_stability : Option Bool := none

/-- One placement entry of a strip (`venue["objects"]`); `none` models an
absent key. -/
structure VenueObject where
  id : String := ""
  mode : String := ""
  width : Option ℤ := none
  align : Option ℚ := none
  target : Option String := none
  rep : Option ℤ := none
  variation : Option ℚ := none
  jitter_stability : Option Bool := none

/-- `_obj_def(obj_id)` (rendering.py 432-433): a missing object resolves
to the empty dict. -/
def _obj_def (objs : String → Option ObjDef) (objId : String) : ObjDef :=
  (objs objId).getD {}

/-- `_obj_art(obj_id)` (rendering.py 435-438). -/
def _obj_art (objs : String → Option ObjDef) (npc : NpcRec)
    (objId : String) : List (List Char) :=
  if objId = "npc" then npc.art else (_obj_def objs objId).art

/-- `_obj_mask(obj_id)` (rendering.py 440-443). -/
def _obj_mask (objs : String → Option ObjDef) (npc : NpcRec)
    (objId : String) : List (List Char) :=
  if objId = "npc" then npc.color_map else (_obj_def objs objId).color_mask

/-- `_obj_align(entry, obj_id)` (rendering.py 445-452): the entry's
`align`, else the object definition's, else 0 (the `float()` conversion
cannot fail on the already-numeric model values). -/
def _obj_align (objs : String → Option ObjDef) (entry : VenueObject)
    (objId : String) : ℚ :=
  entry.align.getD ((_obj_def objs objId).align.getD 0)

/-- `_obj_size(entry, obj_id)` (rendering.py 454-461): a space contributes
`max(0, int(entry.get("width", 1) or 1))` columns and no height; anything
else the maximal art row length and the art row count. -/
def _obj_size (objs : String → Option ObjDef) (npc : NpcRec)
    (entry : VenueObject) (objId : String) : ℕ × ℕ :=
  if objId = "space" then
    let w0 := entry.width.getD 1
    let w1 := if w0 = 0 then 1 else w0
    ((max 0 w1).toNat, 0)
  else
    let art := _obj_art objs npc objId
    ((art.map List.length).foldr max 0, art.length)

/-- Repeat expansion (rendering.py 463-470):
`max(1, int(entry.get("repeat", 1) or 1))` copies of each entry (entries
in the model are already dicts, so the `isinstance` skip never fires). -/
def expandEntries (ventries : List VenueObject) : List VenueObject :=
  ventries.flatMap (fun e =>
    let r0 := e.rep.getD 1
    let r1 := if r0 = 0 then 1 else r0
    List.replicate (max 1 r1).toNat e)

/-- An entry placed at its cumulative x offset. -/
structure PlacedEntry where
  entry : VenueObject
  x : ℕ

/-- The position scan (rendering.py 472-483): cumulative x offsets, with
`span_until` entries contributing zero width up front; the total width
`cursor` and the strip height `max_height`. -/
def layoutScan (objs : String → Option ObjDef) (npc : NpcRec)
    (ventries : List VenueObject) : List PlacedEntry × ℕ × ℕ :=
  ventries.foldl (fun acc e =>
    let s := _obj_size objs npc e e.id
    let w := if e.mode = "span_until" then 0 else s.1
    (acc.1 ++ [⟨e, acc.2.1⟩], acc.2.1 + w, max acc.2.2 s.2)) ([], 0, 0)

/-- The character grid, indexed row-then-column. -/
def Grid := ℤ → ℤ → Char

/-- Point update of a grid cell. -/
def writeCell (g : Grid) (y x : ℤ) (ch : Char) : Grid :=
  fun r c => if r = y ∧ c = x then ch else g r c

/-- The two canvases built by one render call. -/
structure BlitState where
  canvas : Grid
  maskCanvas : Grid

/-- Fresh canvases of spaces (rendering.py 488-489). -/
def initialState : BlitState := ⟨fun _ _ => ' ', fun _ _ => ' '⟩

/-- `_place_mask(mask_char, x, y, ...)` (rendering.py 498-510) restricted
to the mask canvas: write the mask code when the cell is in bounds (the
seed/jitter metadata recording is omitted, see the section comment). -/
def placeMask (H W : ℕ) (st : BlitState) (y x : ℤ) (mc : Char) : BlitState :=
  if 0 ≤ y ∧ y < (H : ℤ) ∧ 0 ≤ x ∧ x < (W : ℤ) then
    { st with maskCanvas := writeCell st.maskCanvas y x mc }
  else st

/-- The body of `_blit` for one in-range cell (rendering.py 531-543): a
non-space character is written to the canvas; the mask code (the
override, or the mask row's character when the column is within it) is
recorded for non-space characters. -/
def blitCellStep (H W : ℕ) (maskOverride : Option Char) (targetY targetX : ℤ)
    (maskLine : List Char) (colIdx : ℕ) (ch : Char) (st : BlitState) : BlitState :=
  let st1 := if ch ≠ ' ' then
      { st with canvas := writeCell st.canvas targetY targetX ch } else st
  match maskOverride with
  | some ov => if ch ≠ ' ' then placeMask H W st1 targetY targetX ov else st1
  | none =>
    match maskLine[colIdx]? with
    | some mc => if ch ≠ ' ' then placeMask H W st1 targetY targetX mc else st1
    | none => st1

/-- One row of `_blit` (rendering.py 527-543): walk the characters with
their column index; out-of-range columns are skipped (`continue`). -/
def blitRowGo (H W : ℕ) (maskOverride : Option Char) (targetY x : ℤ)
    (maskLine : List Char) : ℕ → BlitState → List Char → BlitState
  | _, st, [] => st
  | colIdx, st, ch :: rest =>
    if x + (colIdx : ℤ) < 0 ∨ (W : ℤ) ≤ x + (colIdx : ℤ) then
      blitRowGo H W maskOverride targetY x maskLine (colIdx + 1) st rest
    else
      blitRowGo H W maskOverride targetY x maskLine (colIdx + 1)
        (blitCellStep H W maskOverride targetY (x + (colIdx : ℤ)) maskLine colIdx ch st) rest

/-- The row loop of `_blit` (rendering.py 522-526): rows outside the
canvas are skipped; each remaining row is blitted at `y + row_idx` with
its mask row (the empty string past the mask's length). -/
def blitGo (H W : ℕ) (maskOverride : Option Char) (x y : ℤ)
    (mask : List (List Char)) : ℕ → BlitState → List (List Char) → BlitState
  | _, st, [] => st
  | rowIdx, st, line :: rest =>
    let targetY := y + (rowIdx : ℤ)
    if targetY < 0 ∨ (H : ℤ) ≤ targetY then
      blitGo H W maskOverride x y mask (rowIdx + 1) st rest
    else
      let st2 := blitRowGo H W maskOverride targetY x (mask.getD rowIdx []) 0 st line
      blitGo H W maskOverride x y mask (rowIdx + 1) st2 rest

/-- `_blit(art, mask, x, y, ..., mask_override)` (rendering.py 512-543). -/
def _blit (H W : ℕ) (art mask : List (List Char)) (x y : ℤ)
    (maskOverride : Option Char) (st : BlitState) : BlitState :=
  blitGo H W maskOverride x y mask 0 st art

/-- The vertical blit offset of a placed object (rendering.py 600):
`int((1 - align) * max(0, max_height - obj_height))` — Python `int()`
truncates toward zero. -/
def entryY (align : ℚ) (maxHeight objHeight : ℕ) : ℤ :=
  pyTrunc ((1 - align) * ((max 0 ((maxHeight : ℤ) - (objHeight : ℤ))) : ℚ))

/-- The span fill (rendering.py 584-589): one glyph and mask code from the
entry's first art/mask row, repeated across the span's columns at
`y = int((1 - align) * max(0, max_height - 1))`; the source indexes the
canvas rows directly (no bounds check). -/
def spanFill (st : BlitState) (y : ℤ) (x : ℕ) : ℕ → Char → Option Char → BlitState
  | 0, _, _ => st
  | dx + 1, ch, mc =>
    let st1 := if ch ≠ ' ' then
        { st with canvas := writeCell st.canvas y ((x : ℤ) + dx) ch } else st
    let st2 := match mc with
      | some m => if ch ≠ ' ' then
          { st1 with maskCanvas := writeCell st1.maskCanvas y ((x : ℤ) + dx) m }
        else st1
      | none => st1
    spanFill st2 y x dx ch mc

/-- Processing of one placed entry (rendering.py 545-622): `span_until`
entries fill toward their target, `space` entries are skipped, everything
else (npc included) is blitted at `entryY`; an npc without a mask is
blitted with the `@` mask override (per-entry seed and jitter parameters
feed only the omitted metadata grids). -/
def processEntry (objs : String → Option ObjDef) (npc : NpcRec) (H W : ℕ)
    (positions : List PlacedEntry) (idx : ℕ) (st : BlitState)
    (item : PlacedEntry) : BlitState :=
  let entry := item.entry
  let objId := entry.id
  let x := item.x
  let align := _obj_align objs entry objId
  if entry.mode = "span_until" then
    match entry.target with
    | none => st
    | some targetId =>
      match (positions.drop (idx + 1)).find? (fun p => p.entry.id = targetId) with
      | none => st
      | some tp =>
        if (tp.x : ℤ) - (x : ℤ) ≤ 0 then st
        else
          let art := _obj_art objs npc objId
          if art.isEmpty then st
          else
            let ch := (art.getD 0 []).getD 0 ' '
            let mc : Option Char :=
              match (_obj_mask objs npc objId).getD 0 [] with
              | [] => none
              | c :: _ => some c
            let y := pyTrunc ((1 - align) * ((max 0 ((H : ℤ) - 1)) : ℚ))
            spanFill st y x ((tp.x : ℤ) - (x : ℤ)).toNat ch mc
  else if objId = "space" then st
  else
    let art := _obj_art objs npc objId
    if art.isEmpty then st
    else
      let mask := _obj_mask objs npc objId
      let y := entryY align H art.length
      if objId = "npc" then
        if npc.color_map.isEmpty then _blit H W art mask (x : ℤ) y (some '@') st
        else _blit H W art mask (x : ℤ) y none st
      else _blit H W art mask (x : ℤ) y none st

/-- The layout/blit phase of `render_venue_objects` (rendering.py
463-622): expand, scan positions, then fold the entries over fresh
canvases; empty strips (zero height or zero width, rendering.py 485-486)
return the fresh state with zero dimensions. -/
def renderVenueObjectsCanvas (objs : String → Option ObjDef) (npc : NpcRec)
    (ventries : List VenueObject) : BlitState × ℕ × ℕ :=
  let expanded := expandEntries ventries
  let scan := layoutScan objs npc expanded
  let positions := scan.1
  let cursor := scan.2.1
  let maxH := scan.2.2
  if maxH = 0 ∨ cursor = 0 then (initialState, 0, 0)
  else
    ((positions.enum.foldl (fun st pi =>
        processEntry objs npc maxH cursor positions pi.1 st pi.2) initialState),
      cursor, maxH)


theorem placeMask_canvas (H W : ℕ) (st : BlitState) (y x : ℤ) (mc : Char) :
    (placeMask H W st y x mc).canvas = st.canvas := by
  unfold placeMask
  split_ifs <;> rfl

theorem blitCellStep_canvas (H W : ℕ) (mo : Option Char) (ty tx : ℤ)
    (ml : List Char) (ci : ℕ) (ch : Char) (st : BlitState) :
    (blitCellStep H W mo ty tx ml ci ch st).canvas
      = if ch ≠ ' ' then writeCell st.canvas ty tx ch else st.canvas := by
  unfold blitCellStep
  cases mo with
  | some ov =>
    by_cases h : ch ≠ ' '
    · simp only [if_pos h, placeMask_canvas]
    · simp only [if_neg h]
  | none =>
    cases hml : ml[ci]? with
    | some mc =>
      by_cases h : ch ≠ ' '
      · simp only [if_pos h, placeMask_canvas]
      · simp only [if_neg h]
    | none =>
      by_cases h : ch ≠ ' ' <;> simp [h]

theorem blitRowGo_canvas_agree (H W : ℕ) (mo : Option Char) (ty x : ℤ)
    (ml : List Char) : ∀ (line : List Char) (colIdx : ℕ) (st : BlitState)
    (ry cx : ℤ), (ry ≠ ty ∨ cx < x + (colIdx : ℤ)) →
    (blitRowGo H W mo ty x ml colIdx st line).canvas ry cx = st.canvas ry cx := by
  intro line
  induction line with
  | nil =>
    intro colIdx st ry cx _
    rfl
  | cons ch rest ih =>
    intro colIdx st ry cx h
    have hnext : ry ≠ ty ∨ cx < x + ((colIdx + 1 : ℕ) : ℤ) := by
      rcases h with h | h
      · exact Or.inl h
      · right
        push_cast
        omega
    unfold blitRowGo
    by_cases hoob : x + (colIdx : ℤ) < 0 ∨ (W : ℤ) ≤ x + (colIdx : ℤ)
    · rw [if_pos hoob]
      exact ih (colIdx + 1) st ry cx hnext
    · rw [if_neg hoob]
      rw [ih (colIdx + 1) _ ry cx hnext]
      rw [blitCellStep_canvas]
      by_cases hch : ch ≠ ' '
      · rw [if_pos hch]
        unfold writeCell
        rw [if_neg]
        rintro ⟨rfl, rfl⟩
        rcases h with h | h
        · exact h rfl
        · omega
      · rw [if_neg hch]

theorem blitRowGo_canvas_get (H W : ℕ) (mo : Option Char) (ty x : ℤ)
    (ml : List Char) : ∀ (line : List Char) (colIdx : ℕ) (st : BlitState)
    (k : ℕ), k < line.length → line.getD k ' ' ≠ ' ' →
    0 ≤ x + (colIdx : ℤ) + (k : ℤ) → x + (colIdx : ℤ) + (k : ℤ) < (W : ℤ) →
    (blitRowGo H W mo ty x ml colIdx st line).canvas ty (x + (colIdx : ℤ) + (k : ℤ))
      = line.getD k ' ' := by
  intro line
  induction line with
  | nil =>
    intro colIdx st k hk
    simp at hk
  | cons ch rest ih =>
    intro colIdx st k hk hch hx1 hx2
    cases k with
    | zero =>
      simp only [List.getD_cons_zero] at hch ⊢
      unfold blitRowGo
      rw [if_neg (by push_cast at hx1 hx2 ⊢; omega)]
      rw [blitRowGo_canvas_agree H W mo ty x ml rest (colIdx + 1) _ ty
        (x + (colIdx : ℤ) + ((0 : ℕ) : ℤ)) (by right; push_cast; omega)]
      rw [blitCellStep_canvas, if_pos hch]
      unfold writeCell
      rw [if_pos (by push_cast; omega)]
    | succ j =>
      simp only [List.getD_cons_succ] at hch ⊢
      have harith : x + (colIdx : ℤ) + ((j + 1 : ℕ) : ℤ)
          = x + ((colIdx + 1 : ℕ) : ℤ) + (j : ℤ) := by
        push_cast
        ring
      unfold blitRowGo
      by_cases hoob : x + (colIdx : ℤ) < 0 ∨ (W : ℤ) ≤ x + (colIdx : ℤ)
      · rw [if_pos hoob, harith]
        exact ih (colIdx + 1) st j (by simpa using hk) hch
          (by rw [← harith]; exact hx1) (by rw [← harith]; exact hx2)
      · rw [if_neg hoob, harith]
        exact ih (colIdx + 1) _ j (by simpa using hk) hch
          (by rw [← harith]; exact hx1) (by rw [← harith]; exact hx2)

theorem blitGo_canvas_agree (H W : ℕ) (mo : Option Char) (x y : ℤ)
    (mask : List (List Char)) : ∀ (art : List (List Char)) (rowIdx : ℕ)
    (st : BlitState) (ry cx : ℤ), ry < y + (rowIdx : ℤ) →
    (blitGo H W mo x y mask rowIdx st art).canvas ry cx = st.canvas ry cx := by
  intro art
  induction art with
  | nil =>
    intro rowIdx st ry cx _
    rfl
  | cons line rest ih =>
    intro rowIdx st ry cx hry
    have hnext : ry < y + ((rowIdx + 1 : ℕ) : ℤ) := by push_cast at hry ⊢; omega
    unfold blitGo
    by_cases hoob : y + (rowIdx : ℤ) < 0 ∨ (H : ℤ) ≤ y + (rowIdx : ℤ)
    · rw [if_pos hoob]
      exact ih (rowIdx + 1) st ry cx hnext
    · rw [if_neg hoob]
      rw [ih (rowIdx + 1) _ ry cx hnext]
      exact blitRowGo_canvas_agree H W mo (y + (rowIdx : ℤ)) x _ line 0 st ry cx
        (Or.inl (by omega))

theorem blitGo_canvas_get (H W : ℕ) (mo : Option Char) (x y : ℤ)
    (mask : List (List Char)) : ∀ (art : List (List Char)) (rowIdx : ℕ)
    (st : BlitState) (r c : ℕ), r < art.length →
    c < (art.getD r []).length → (art.getD r []).getD c ' ' ≠ ' ' →
    0 ≤ y + ((rowIdx : ℤ) + (r : ℤ)) → y + ((rowIdx : ℤ) + (r : ℤ)) < (H : ℤ) →
    0 ≤ x + (c : ℤ) → x + (c : ℤ) < (W : ℤ) →
    (blitGo H W mo x y mask rowIdx st art).canvas (y + ((rowIdx : ℤ) + (r : ℤ)))
        (x + (c : ℤ)) = (art.getD r []).getD c ' ' := by
  intro art
  induction art with
  | nil =>
    intro rowIdx st r c hr
    simp at hr
  | cons line rest ih =>
    intro rowIdx st r c hr hc hch hy1 hy2 hx1 hx2
    cases r with
    | zero =>
      simp only [List.getD_cons_zero] at hc hch ⊢
      simp only [Nat.cast_zero, add_zero] at hy1 hy2 ⊢
      unfold blitGo
      rw [if_neg (by omega)]
      rw [blitGo_canvas_agree H W mo x y mask rest (rowIdx + 1) _
        (y + (rowIdx : ℤ)) (x + (c : ℤ)) (by push_cast; omega)]
      have := blitRowGo_canvas_get H W mo (y + (rowIdx : ℤ)) x
        (mask.getD rowIdx []) line 0 st c hc hch
        (by push_cast; omega) (by push_cast; omega)
      simpa using this
    | succ j =>
      simp only [List.getD_cons_succ] at hc hch ⊢
      have harith : y + ((rowIdx : ℤ) + ((j + 1 : ℕ) : ℤ))
          = y + (((rowIdx + 1 : ℕ) : ℤ) + (j : ℤ)) := by
        push_cast
        ring
      unfold blitGo
      by_cases hoob : y + (rowIdx : ℤ) < 0 ∨ (H : ℤ) ≤ y + (rowIdx : ℤ)
      · rw [if_pos hoob, harith]
        exact ih (rowIdx + 1) st j c (by simpa using hr) hc hch
          (by rw [← harith]; exact hy1) (by rw [← harith]; exact hy2) hx1 hx2
      · rw [if_neg hoob, harith]
        exact ih (rowIdx + 1) _ j c (by simpa using hr) hc hch
          (by rw [← harith]; exact hy1) (by rw [← harith]; exact hy2) hx1 hx2

/-- `_blit` places every non-space art character at `(x + col, y + row)`
when those coordinates are inside the canvas. -/
theorem blit_canvas_get (H W : ℕ) (art mask : List (List Char)) (x y : ℤ)
    (mo : Option Char) (st : BlitState) (r c : ℕ) (hr : r < art.length)
    (hch : (art.getD r []).getD c ' ' ≠ ' ')
    (hy1 : 0 ≤ y + (r : ℤ)) (hy2 : y + (r : ℤ) < (H : ℤ))
    (hx1 : 0 ≤ x + (c : ℤ)) (hx2 : x + (c : ℤ) < (W : ℤ)) :
    (_blit H W art mask x y mo st).canvas (y + (r : ℤ)) (x + (c : ℤ))
      = (art.getD r []).getD c ' ' := by
  have hc : c < (art.getD r []).length := by
    by_contra hcon
    exact hch (List.getD_eq_default _ _ (by omega))
  have := blitGo_canvas_get H W mo x y mask art 0 st r c hr hc hch
    (by push_cast; omega) (by push_cast; omega) hx1 hx2
  simpa using this


/-- C6 (amended): for every non-space, non-span placement entry with
non-empty art, the compositor blits the entry's art at vertical offset
`y = int((1 - align) * max(0, canvas_height - asset_height))` — Python
`int()` truncation, which on this non-negative product (align in [0,1])
is the floor, not the claim's `round`: `processEntry` hands `_blit`
exactly `entryY`, `entryY` is that floor, and `_blit` writes every
non-space art character of row r, column c to `canvas[y + r][x + c]`. -/
theorem claim_C6_blit_offset (objs : String → Option ObjDef) (npc : NpcRec)
    (H W : ℕ) (positions : List PlacedEntry) (idx : ℕ) (st : BlitState)
    (item : PlacedEntry)
    (hmode : item.entry.mode ≠ "span_until")
    (hspace : item.entry.id ≠ "space")
    (hart : _obj_art objs npc item.entry.id ≠ [])
    (halign0 : 0 ≤ _obj_align objs item.entry item.entry.id)
    (halign1 : _obj_align objs item.entry item.entry.id ≤ 1) :
    (∃ mo : Option Char,
      processEntry objs npc H W positions idx st item
        = _blit H W (_obj_art objs npc item.entry.id)
            (_obj_mask objs npc item.entry.id) (item.x : ℤ)
            (entryY (_obj_align objs item.entry item.entry.id) H
              (_obj_art objs npc item.entry.id).length) mo st) ∧
    entryY (_obj_align objs item.entry item.entry.id) H
        (_obj_art objs npc item.entry.id).length
      = ⌊(1 - _obj_align objs item.entry item.entry.id)
          * ((max 0 ((H : ℤ) - ((_obj_art objs npc item.entry.id).length : ℤ))) : ℚ)⌋ ∧
    ∀ (art mask : List (List Char)) (x y : ℤ) (mo : Option Char)
      (st2 : BlitState) (r c : ℕ), r < art.length →
      (art.getD r []).getD c ' ' ≠ ' ' →
      0 ≤ y + (r : ℤ) → y + (r : ℤ) < (H : ℤ) →
      0 ≤ x + (c : ℤ) → x + (c : ℤ) < (W : ℤ) →
      (_blit H W art mask x y mo st2).canvas (y + (r : ℤ)) (x + (c : ℤ))
        = (art.getD r []).getD c ' ' := by
  refine ⟨?_, ?_, ?_⟩
  · simp only [processEntry]
    rw [if_neg hmode, if_neg hspace,
      if_neg (by simpa [List.isEmpty_iff] using hart)]
    by_cases hn : item.entry.id = "npc"
    · rw [if_pos hn]
      by_cases hm : npc.color_map.isEmpty
      · rw [if_pos hm]
        rw [hn]
        exact ⟨some '@', rfl⟩
      · rw [if_neg hm]
        rw [hn]
        exact ⟨none, rfl⟩
    · rw [if_neg hn]
      exact ⟨none, rfl⟩
  · unfold entryY
    rw [pyTrunc_eq_floor]
    apply mul_nonneg
    · linarith
    · have : (0 : ℤ) ≤ max 0 ((H : ℤ) - ((_obj_art objs npc item.entry.id).length : ℤ)) :=
        le_max_left 0 _
      exact_mod_cast this
  · intro art mask x y mo st2 r c hr hch hy1 hy2 hx1 hx2
    exact blit_canvas_get H W art mask x y mo st2 r c hr hch hy1 hy2 hx1 hx2

/-- A small object library for the concrete C6 instances: a 6-row strip
asset and a 1-row asset aligned at 0.3. -/
def exampleObjs : String → Option ObjDef := fun oid =>
  if oid = "tall" then
    some { art := [['A'], ['A'], ['A'], ['A'], ['A'], ['A']] }
  else if oid = "short" then
    some { art := [['B']], align := some (3/10) }
  else none

/-- C6 counterexample: with canvas height 6 and a 1-row asset aligned at
0.3, the code computes `int((1 - 0.3) * 5) = int(3.5) = 3` and the glyph
lands on canvas row 3 (row 4 stays blank), while the claim's
`round((1 - 0.3) * 5)` is 4. -/
theorem claim_C6_counterexample :
    entryY (3/10) 6 1 = 3 ∧
    round (((1 : ℚ) - 3/10) * ((6 : ℚ) - 1)) = 4 ∧
    (_blit 6 2 [['B']] [] 1 (entryY (3/10) 6 1) none initialState).canvas 3 1 = 'B' ∧
    (_blit 6 2 [['B']] [] 1 (entryY (3/10) 6 1) none initialState).canvas 4 1 = ' ' := by
  have hy : entryY (3/10) 6 1 = 3 := by
    unfold entryY
    rw [show ((max 0 (((6 : ℕ) : ℤ) - ((1 : ℕ) : ℤ))) : ℚ) = 5 by norm_num]
    rw [pyTrunc_eq_floor (by norm_num)]
    rw [show ((1 : ℚ) - 3/10) * 5 = 7/2 by norm_num]
    rw [Int.floor_eq_iff]
    constructor <;> norm_num
  refine ⟨hy, ?_, ?_, ?_⟩
  · rw [show ((1 : ℚ) - 3/10) * ((6 : ℚ) - 1) = 7/2 by norm_num, round_eq]
    rw [show (7 : ℚ)/2 + 1/2 = 4 by norm_num]
    norm_num
  · rw [hy]
    decide
  · rw [hy]
    decide

theorem claim_C6_witness :
    (∃ mo : Option Char,
      processEntry exampleObjs {} 6 2 [] 0 initialState ⟨{ id := "tall" }, 0⟩
        = _blit 6 2 (_obj_art exampleObjs {} "tall")
            (_obj_mask exampleObjs {} "tall") (((0 : ℕ)) : ℤ)
            (entryY (_obj_align exampleObjs { id := "tall" } "tall") 6
              (_obj_art exampleObjs {} "tall").length) mo initialState) ∧
    entryY (_obj_align exampleObjs { id := "tall" } "tall") 6
        (_obj_art exampleObjs {} "tall").length
      = ⌊(1 - _obj_align exampleObjs { id := "tall" } "tall")
          * ((max 0 ((6 : ℤ) - ((_obj_art exampleObjs {} "tall").length : ℤ))) : ℚ)⌋ := by
  have ha : _obj_align exampleObjs { id := "tall" } "tall" = 0 := by
    simp [_obj_align, _obj_def, exampleObjs]
  have h := claim_C6_blit_offset exampleObjs {} 6 2 [] 0 initialState
    ⟨{ id := "tall" }, 0⟩ (by decide) (by decide)
    (by simp [_obj_art, _obj_def, exampleObjs])
    (by rw [ha]) (by rw [ha]; norm_num)
  exact ⟨h.1, h.2.1⟩

end Lokarta
